import Mathlib

/-!
Verification of the gmtk23 tower-defense core against its specification.

The Rust sources are shallowly embedded: pure functions become Lean functions,
the A* main loop becomes a fuel-indexed recursion (the Rust `while` loop), and
machine integers are modelled as `Nat`/`Int` with explicit wrap-around where the
Rust code can overflow (`usize` arithmetic in `Path::increment_index`).  The
`f32` values appearing in the pathfinder (`f` and `g` scores, the Manhattan
heuristic) are integer-valued at every program point, and are modelled as `Nat`;
`f32::MAX` is modelled by the exact rational/natural value of that constant.
Other `f32` quantities (scores, weights, distances) are modelled as `ℚ`, which
is exact for the small dyadic values the game manipulates.
-/

namespace Gmtk

/-! ## Data model: `src/world/path_finding.rs` and `src/world/towers.rs` -/

/-- Grid cell. Mirrors `Node` in path_finding.rs. -/
structure Node where
  x : Int
  y : Int
deriving DecidableEq, Repr

def Node.new (x y : Int) : Node := ⟨x, y⟩

/-- Search node of the A* loop.  Mirrors `HierarchicalNode` in path_finding.rs.
The Rust struct stores `parent : Option<Box<HierarchicalNode>>`; the parent
chain is immutable once a node is created, so we represent it by the list of
the chain's nodes, root (start) first.  `f` and `g` are `f32` in Rust but hold
exact small integers at every program point; they are modelled as `Nat`. -/
structure HierarchicalNode where
  node : Node
  ancestors : List Node
  f : Nat
  g : Nat
deriving DecidableEq, Repr

def HierarchicalNode.from_node (n : Node) : HierarchicalNode :=
  ⟨n, [], 0, 0⟩

def HierarchicalNode.from_node_with_parent (n : Node) (parent : HierarchicalNode) :
    HierarchicalNode :=
  ⟨n, parent.ancestors ++ [parent.node], 0, 0⟩

/-- Mirrors `Path` in path_finding.rs. -/
structure Path where
  route : List Node
  current_index : Nat
deriving DecidableEq, Repr

def Path.empty : Path := ⟨[], 0⟩

def Path.get_size (p : Path) : Nat := p.route.length

def Path.get_nodes (p : Path) : List Node := p.route

def Path.get_current_index (p : Path) : Nat := p.current_index

/-- Word size of the target: `usize` is 64 bits. -/
def USIZE : Nat := 2 ^ 64

/-- Mirrors `Path::increment_index`.  The Rust code compares against
`self.route.len() - 1`, a `usize` subtraction that wraps around to
`2^64 - 1` when the route is empty (release-mode two's-complement
semantics), which we model by `(len + USIZE - 1) % USIZE`. -/
def Path.increment_index (p : Path) : Path :=
  if p.current_index < (p.route.length + USIZE - 1) % USIZE then
    { p with current_index := p.current_index + 1 }
  else
    p

/-- Mirrors `FieldSlot` in towers.rs (the occupying-entity reference is
irrelevant to path finding and the decision engine and is elided). -/
structure FieldSlot where
  blocked : Bool
  occupied : Bool
deriving DecidableEq, Repr

/-- Mirrors `TowerField` in towers.rs (the rendering offset
`field_transform` is elided; `end` is a reserved word in Lean, so the end
cell is named `endNode`). -/
structure TowerField where
  slots : List FieldSlot
  width : Nat
  height : Nat
  start : Node
  endNode : Node
deriving DecidableEq, Repr

/-- Mirrors `TowerField::new`: all slots start unblocked and unoccupied. -/
def TowerField.new (width height : Nat) (start endNode : Node) : TowerField :=
  ⟨List.replicate (width * height) ⟨false, false⟩, width, height, start, endNode⟩

/-- Mirrors `TowerField::is_blocked` (out-of-range slot indices count as blocked). -/
def TowerField.is_blocked (fld : TowerField) (x y : Nat) : Bool :=
  match fld.slots[y * fld.width + x]? with
  | some s => s.blocked
  | none => true

/-- Mirrors `TowerField::is_occupied`. -/
def TowerField.is_occupied (fld : TowerField) (x y : Nat) : Bool :=
  match fld.slots[y * fld.width + x]? with
  | some s => s.occupied
  | none => true

/-- Mirrors `TowerField::is_node_blocked`. -/
def TowerField.is_node_blocked (fld : TowerField) (n : Node) : Bool :=
  if n.x < 0 ∨ n.y < 0 then true
  else fld.is_blocked n.x.toNat n.y.toNat

/-- Mirrors `TowerField::is_node_occupied`. -/
def TowerField.is_node_occupied (fld : TowerField) (n : Node) : Bool :=
  if n.x < 0 ∨ n.y < 0 then true
  else fld.is_occupied n.x.toNat n.y.toNat

def TowerField.get_width (fld : TowerField) : Nat := fld.width

def TowerField.get_height (fld : TowerField) : Nat := fld.height

def TowerField.get_start (fld : TowerField) : Node := fld.start

def TowerField.get_end (fld : TowerField) : Node := fld.endNode

/-! ## The A* pathfinder: `src/world/path_finding.rs` -/

/-- Mirrors `get_successors`: west, east, north, south, in this order. -/
def get_successors (n : Node) : List Node :=
  [Node.new (n.x - 1) n.y, Node.new (n.x + 1) n.y,
   Node.new n.x (n.y + 1), Node.new n.x (n.y - 1)]

/-- Mirrors `get_all_neighbors` (8-neighborhood). -/
def get_all_neighbors (n : Node) : List Node :=
  [Node.new (n.x - 1) n.y, Node.new (n.x + 1) n.y,
   Node.new n.x (n.y + 1), Node.new n.x (n.y - 1),
   Node.new (n.x - 1) (n.y - 1), Node.new (n.x + 1) (n.y + 1),
   Node.new (n.x - 1) (n.y + 1), Node.new (n.x + 1) (n.y - 1)]

/-- Mirrors `get_self_with_successors`. -/
def get_self_with_successors (n : Node) : List Node :=
  [n, Node.new (n.x - 1) n.y, Node.new (n.x + 1) n.y,
   Node.new n.x (n.y + 1), Node.new n.x (n.y - 1)]

/-- Mirrors `is_outside_field`. -/
def is_outside_field (n : Node) (fld : TowerField) : Bool :=
  decide (n.x < 0) || decide ((fld.get_width : Int) ≤ n.x) ||
  decide (n.y < 0) || decide ((fld.get_height : Int) ≤ n.y)

/-- Mirrors `contains_node`. -/
def contains_node (list : List HierarchicalNode) (node : HierarchicalNode) : Bool :=
  list.any fun item => decide (item.node = node.node)

/-- Mirrors `distance`: Manhattan distance.  The Rust code computes it in
`f32`, exactly representing these integer values. -/
def distance (from_node to_node : Node) : Nat :=
  (from_node.x - to_node.x).natAbs + (from_node.y - to_node.y).natAbs

/-- Mirrors `heuristic`. -/
def heuristic (node endNode : Node) : Nat := distance node endNode

/-- The exact value of `f32::MAX`, used as the initial accumulator of the
linear minimum scans. -/
def F32_MAX_NAT : Nat := 2 ^ 128 - 2 ^ 104

/-- Scanning loop of `find_min_index`: first index whose `f` is strictly
below the running minimum wins. -/
def find_min_index_go : List HierarchicalNode → Nat → Nat → Nat → Nat
  | [], _, minIdx, _ => minIdx
  | item :: rest, i, minIdx, minF =>
    if item.f < minF then find_min_index_go rest (i + 1) i item.f
    else find_min_index_go rest (i + 1) minIdx minF

/-- Mirrors `find_min_index`: `min_f` starts at `f32::MAX` and `min_index`
at `usize::MAX`. -/
def find_min_index (list : List HierarchicalNode) : Option Nat :=
  if list.isEmpty then none
  else some (find_min_index_go list 0 (USIZE - 1) F32_MAX_NAT)

/-- Mirrors `replace_if_better`.  `found` records that an entry with the same
cell but no strictly larger `f` has been seen; the first entry with the same
cell and a strictly larger `f` is overwritten. -/
def replace_if_better_go (new_node : HierarchicalNode) (found : Bool) :
    List HierarchicalNode → List HierarchicalNode
  | [] => if found then [] else [new_node]
  | item :: rest =>
    if item.node = new_node.node ∧ new_node.f < item.f then new_node :: rest
    else if item.node = new_node.node then item :: replace_if_better_go new_node true rest
    else item :: replace_if_better_go new_node found rest

def replace_if_better (list : List HierarchicalNode) (new_node : HierarchicalNode) :
    List HierarchicalNode :=
  replace_if_better_go new_node false list

/-- Mirrors `get_path`: the Rust code walks the parent links from the
destination, prepending each node; the result is exactly the stored chain,
root first, destination last. -/
def get_path (destination : HierarchicalNode) : Path :=
  ⟨destination.ancestors ++ [destination.node], 0⟩

/-- Successor-processing loop body of `a_star_with_blocked_node`
(path_finding.rs lines 153-172): for each generated successor, in order:
return the finished path if it is the goal; skip it if it is the
hypothetically blocked cell, outside the field, blocked, or closed;
otherwise set its `g`/`f` and merge it into the open list. -/
def process_successors (fld : TowerField) (endNode : Node) (blocked : Option Node)
    (closed : List HierarchicalNode) (q : HierarchicalNode) :
    List Node → List HierarchicalNode → Path ⊕ List HierarchicalNode
  | [], op => Sum.inr op
  | n :: rest, op =>
    let successor := HierarchicalNode.from_node_with_parent n q
    if successor.node = endNode then Sum.inl (get_path successor)
    else if blocked = some successor.node then
      process_successors fld endNode blocked closed q rest op
    else if is_outside_field successor.node fld then
      process_successors fld endNode blocked closed q rest op
    else if fld.is_node_blocked successor.node || contains_node closed successor then
      process_successors fld endNode blocked closed q rest op
    else
      let s : HierarchicalNode :=
        { successor with g := q.g + 1, f := q.g + 1 + heuristic successor.node endNode }
      process_successors fld endNode blocked closed q rest (replace_if_better op s)

/-- Main loop of `a_star_with_blocked_node` (the Rust `while !open.is_empty()`),
as a fuel-indexed recursion: running out of fuel yields `none`.  Each
iteration pops the minimum-`f` node, expands its successors, and pushes the
popped node onto the closed list. -/
def a_star_loop (fld : TowerField) (endNode : Node) (blocked : Option Node) :
    Nat → List HierarchicalNode → List HierarchicalNode → Option Path
  | 0, _, _ => none
  | fuel + 1, op, closed =>
    if op.isEmpty then none
    else
      match find_min_index op with
      | none => none
      | some minIdx =>
        match op[minIdx]? with
        | none => none
        | some q =>
          match process_successors fld endNode blocked closed q
              (get_successors q.node) (op.eraseIdx minIdx) with
          | Sum.inl p => some p
          | Sum.inr op2 => a_star_loop fld endNode blocked fuel op2 (closed ++ [q])

/-- Mirrors `a_star_with_blocked_node` (preconditions, then the search loop). -/
def a_star_with_blocked_node (fld : TowerField) (start endNode : Node)
    (additional_blocked_node : Option Node) (fuel : Nat) : Option Path :=
  if additional_blocked_node = some start ∨ additional_blocked_node = some endNode then none
  else if is_outside_field start fld then none
  else if is_outside_field endNode fld then none
  else if fld.is_node_blocked start then none
  else if fld.is_node_blocked endNode then none
  else if start = endNode then none
  else a_star_loop fld endNode additional_blocked_node fuel
    [HierarchicalNode.from_node start] []

/-- Mirrors `a_star`. -/
def a_star (fld : TowerField) (start endNode : Node) (fuel : Nat) : Option Path :=
  a_star_with_blocked_node fld start endNode none fuel

/-! ## Defender decision engine: `src/world/defender_controller.rs` -/

/-- Mirrors `BuildingType` in building_configuration.rs. -/
inductive BuildingType where
  | Arrow
  | Wall
  | Cannon
deriving DecidableEq, Repr

/-- Mirrors `WeightedNode` (weight is `f32`, modelled exactly as `ℚ`). -/
structure WeightedNode where
  node : Node
  weight : ℚ
deriving DecidableEq, Repr

/-- Decision-relevant state of `DefenderConfiguration` (the cooldown `Timer`
is driven externally and elided; the `HashSet<Node>` path hash is modelled by
a membership-equivalent list). -/
structure DefenderConfiguration where
  wall_weight : ℚ
  damage_weight : ℚ
  sell_weight : ℚ
  estimated_damage_needed : ℚ
  estimated_damage_potential : ℚ
  path_length : ℚ
  path_distance : ℚ
  path : Path
  path_hash : List Node
  can_build_wall : Bool
  can_build_tower : Bool
  num_defenders : Int
  num_walls : Int
  sell_values : List WeightedNode
deriving DecidableEq, Repr

/-- Initial `DefenderConfiguration` inserted by `DefenderController::build`
(defender_controller.rs lines 125-141). -/
def DefenderConfiguration.initial : DefenderConfiguration :=
  { wall_weight := 1
    damage_weight := 14 / 10
    sell_weight := 1
    estimated_damage_needed := 1000
    estimated_damage_potential := 0
    path_length := 0
    path_distance := 0
    path := Path.empty
    path_hash := []
    can_build_wall := true
    can_build_tower := true
    num_defenders := 0
    num_walls := 0
    sell_values := [] }

/-- Mirrors `DefenderConfiguration::is_node_adjacent_to_or_on_path`. -/
def DefenderConfiguration.is_node_adjacent_to_or_on_path
    (cfg : DefenderConfiguration) (node : Node) : Bool :=
  let x := node.x
  let y := node.y
  decide (node ∈ cfg.path_hash) ||
  decide (Node.new (x + 1) y ∈ cfg.path_hash) ||
  decide (Node.new (x - 1) y ∈ cfg.path_hash) ||
  decide (Node.new x (y + 1) ∈ cfg.path_hash) ||
  decide (Node.new x (y - 1) ∈ cfg.path_hash) ||
  decide (Node.new (x + 1) (y + 1) ∈ cfg.path_hash) ||
  decide (Node.new (x - 1) (y - 1) ∈ cfg.path_hash) ||
  decide (Node.new (x + 1) (y - 1) ∈ cfg.path_hash) ||
  decide (Node.new (x - 1) (y + 1) ∈ cfg.path_hash)

/-- Mirrors `DefenderConfiguration::get_wall_factor`.  Note: when
`num_walls ≠ 0` and `num_defenders = 0` the Rust `f32` division yields an
infinity; in `ℚ` division by zero yields `0`.  No claim in this development
depends on that corner. -/
def DefenderConfiguration.get_wall_factor (cfg : DefenderConfiguration) : ℚ :=
  if cfg.num_walls = 0 then 1
  else 1 + (cfg.num_walls : ℚ) / (cfg.num_defenders : ℚ)

/-- Mirrors `get_wall_build_action`: a candidate must be adjacent to or on
the path and unoccupied; its weight is the length of the path found with the
candidate hypothetically blocked, or `0` if no such path exists; only
positive weights are kept. -/
def get_wall_build_action (fld : TowerField) (cfg : DefenderConfiguration)
    (node : Node) (fuel : Nat) : Option WeightedNode :=
  if ¬cfg.is_node_adjacent_to_or_on_path node || fld.is_node_occupied node then none
  else
    let weight : ℚ :=
      match a_star_with_blocked_node fld fld.get_start fld.get_end (some node) fuel with
      | some path => (path.get_size : ℚ)
      | none => 0
    if 0 < weight then some ⟨node, weight⟩ else none

/-- The exact value of `f32::MAX` as a rational, `2 ^ 128 - 2 ^ 104`,
written as a literal so that it evaluates by kernel reduction. -/
def F32_MAX_Q : ℚ := 340282346638528859811704183484516925440

/-- The exact value of `f32::MIN` as a rational, `-(2 ^ 128 - 2 ^ 104)`. -/
def F32_MIN_Q : ℚ := -340282346638528859811704183484516925440

/-- Scanning loop of the minimum-weight search inside `get_wall_build_actions`
(defender_controller.rs lines 506-513): `min` starts at `f32::MAX`,
`index` at `-1` (modelled as `none`). -/
def min_weight_index_go : List WeightedNode → Nat → Option Nat → ℚ → Option Nat
  | [], _, idx, _ => idx
  | r :: rest, j, idx, mn =>
    if r.weight < mn then min_weight_index_go rest (j + 1) (some j) r.weight
    else min_weight_index_go rest (j + 1) idx mn

def min_weight_index (results : List WeightedNode) : Option Nat :=
  min_weight_index_go results 0 none F32_MAX_Q

/-- Replacement step of `get_wall_build_actions` once the kept list is at
capacity (defender_controller.rs lines 505-517): the entry at the first
minimum-weight index is overwritten by the new candidate (unconditionally —
the new candidate's weight is never compared against the minimum). -/
def replace_min_weight (results : List WeightedNode) (wn : WeightedNode) :
    List WeightedNode :=
  match min_weight_index results with
  | some j => results.set j wn
  | none => results

/-- Loop state of `get_wall_build_actions`: candidate counter `i`, seen-set,
kept candidates, and whether the early `return results` was taken. -/
structure WallGenState where
  i : Nat
  seen : List Node
  results : List WeightedNode
  stopped : Bool
deriving DecidableEq, Repr

/-- One candidate step of `get_wall_build_actions` (the body of the inner
loop, defender_controller.rs lines 493-521). -/
def gwba_step (fld : TowerField) (cfg : DefenderConfiguration) (fuel TMAX TITER : Nat)
    (st : WallGenState) (current_candidate : Node) : WallGenState :=
  if st.stopped then st
  else
    let i := st.i + 1
    if current_candidate ∈ st.seen then { st with i := i }
    else
      let seen := current_candidate :: st.seen
      if st.results.length < TMAX then
        match get_wall_build_action fld cfg current_candidate fuel with
        | some wn => ⟨i, seen, st.results ++ [wn], false⟩
        | none => ⟨i, seen, st.results, false⟩
      else if i < TITER then
        match get_wall_build_action fld cfg current_candidate fuel with
        | some wn => ⟨i, seen, replace_min_weight st.results wn, false⟩
        | none => ⟨i, seen, st.results, false⟩
      else
        ⟨i, seen, st.results, true⟩

/-- Mirrors `get_wall_build_actions`: walk the current path's nodes, each with
itself and its four successors, through `gwba_step`. -/
def get_wall_build_actions (TMAX TITER : Nat) (fld : TowerField)
    (cfg : DefenderConfiguration) (fuel : Nat) : List WeightedNode :=
  ((cfg.path.get_nodes.map get_self_with_successors).flatten.foldl
    (gwba_step fld cfg fuel TMAX TITER) ⟨0, [], [], false⟩).results

/-- Mirrors `get_defender_build_actions` (the adjacency map parameter is only
used by commented-out code in the source and is ignored). -/
def get_defender_build_actions (TMAX TITER : Nat) (adjacency : List (Node × Int))
    (fld : TowerField) (cfg : DefenderConfiguration) (building_type : BuildingType)
    (fuel : Nat) : List (Node × BuildingType) :=
  (get_wall_build_actions TMAX TITER fld cfg fuel).map fun wn => (wn.node, building_type)

/-- Mirrors `max_index`: linear scan with `max` starting at `f32::MIN`,
`index` at `0`; only a strictly larger value moves the index. -/
def max_index_go : List ℚ → Nat → ℚ → Nat → Nat
  | [], _, _, idx => idx
  | a :: rest, i, mx, idx =>
    if mx < a then max_index_go rest (i + 1) a i
    else max_index_go rest (i + 1) mx idx

def max_index (arr : List ℚ) : Nat := max_index_go arr 0 F32_MIN_Q 0

/-- Mirrors `ResourceStore` (defender-side gold and lives). -/
structure ResourceStore where
  gold : Int
  lives : Int
deriving DecidableEq, Repr

/-- Mirrors `BuildingPreset` (the texture/spawn data is rendering-side). -/
structure BuildingPreset where
  building_type : BuildingType
  dps : ℚ
  aoe : Bool
  cost : Int
  blocking : Bool
deriving DecidableEq, Repr

/-- Mirrors `buy_structure`: requires affordable cost and non-negative
coordinates; on success deducts the cost (the spawn itself is
rendering-side). -/
def buy_structure (resources : ResourceStore) (preset : BuildingPreset)
    (node : Node) : Bool × ResourceStore :=
  if preset.cost ≤ resources.gold ∧ 0 ≤ node.x ∧ 0 ≤ node.y then
    (true, { resources with gold := resources.gold - preset.cost })
  else
    (false, resources)

/-- Mirrors the decision-relevant fields of `RoundStats`
(`round_duration` is a `Duration` only used for display and is elided). -/
structure RoundStats where
  damage_dealt : ℚ
  num_reached_end : Int
  closest_distance_to_end : ℚ
  num_killed : Int
deriving DecidableEq, Repr

/-- Truncation toward zero, the semantics of Rust `as i32` on a finite
float value. -/
def ratTrunc (q : ℚ) : Int :=
  if 0 ≤ q then Int.floor q else Int.ceil q

/-- Closed integer range `[a, b]`, the Rust `a..=b` iteration. -/
def intRangeIncl (a b : Int) : List Int :=
  (List.range (b + 1 - a).toNat).map fun k => a + k

/-- Mirrors the per-tick external inputs of the `perform_an_action` system:
event flags, RNG draws, clock-derived values, and the startup resources.
`actual_distance` is the Euclidean start-to-end distance computed by the
rendering-side vector library (it involves `sqrt` and is supplied as an
input here). -/
structure PerformEnv where
  field_modified : Bool
  actual_distance : ℚ
  defenders : List (BuildingType × ℚ × ℚ × ℚ)
  dps : BuildingType → ℚ
  cooldown_just_finished : Bool
  cannon_roll : Bool
  wall_pick : Nat
  tower_pick : Nat
  fuel : Nat
  presets : BuildingType → BuildingPreset

/-- The mutable state threaded through `perform_an_action`:
the configuration resource, round stats, defender resources, the
`adjacency_field` local, the `next_tower` local, and the `initialized` local. -/
structure PerformState where
  cfg : DefenderConfiguration
  stats : RoundStats
  resources : ResourceStore
  adjacency_field : List (Node × Int)
  next_tower : Option BuildingType
  initialized : Bool
deriving Repr

/-- Adjacency map computed during the recompute step (defender_controller.rs
lines 295-313): for every non-path cell, how many of its 8 neighbors lie on
the path. -/
def compute_adjacency_field (fld : TowerField) (path_hash : List Node) :
    List (Node × Int) :=
  (((List.range fld.get_width).map fun x =>
    ((List.range fld.get_height).filterMap fun y =>
      let this_node := Node.new (Int.ofNat x) (Int.ofNat y)
      if this_node ∈ path_hash then none
      else
        some (this_node,
          (Int.ofNat ((get_all_neighbors this_node).filter fun n =>
            decide (n ∈ path_hash)).length)))).flatten)

/-- Mirrors `adjacency_field.get(&node).copied().unwrap_or(0)`. -/
def adjacency_lookup (af : List (Node × Int)) (n : Node) : Int :=
  match af.find? fun e => decide (e.1 = n) with
  | some e => e.2
  | none => 0

/-- Mirrors the sell-value upsert (defender_controller.rs lines 344-357). -/
def upsert_sell_value (sv : List WeightedNode) (n : Node) (w : ℚ) :
    List WeightedNode :=
  match sv.findIdx? fun e => decide (e.node = n) with
  | some i => sv.set i ⟨n, w⟩
  | none => sv ++ [⟨n, w⟩]

/-- Per-defender contribution of the recompute step (defender_controller.rs
lines 317-358): accumulate the estimated damage potential and upsert the
structure's sell value. -/
def recompute_defender_step (env : PerformEnv) (af : List (Node × Int))
    (path_hash : List Node) (cfg : DefenderConfiguration)
    (item : BuildingType × ℚ × ℚ × ℚ) : DefenderConfiguration :=
  let building_type := item.1
  let attack_range := item.2.1
  let pos_x := item.2.2.1 / (64 : ℚ)
  let pos_y := item.2.2.2 / (64 : ℚ)
  let defender_node := Node.new (ratTrunc pos_x) (ratTrunc pos_y)
  let adjacent : ℚ := max ((adjacency_lookup af defender_node : ℚ) * (4 / 10)) 1
  let speed : ℚ := 40
  let time_to_travel := attack_range / speed
  let dpsv := env.dps building_type
  let cfg := { cfg with estimated_damage_potential :=
    cfg.estimated_damage_potential + dpsv * time_to_travel * adjacent }
  let min_x := Int.floor (pos_x - attack_range / 64)
  let max_x := Int.ceil (pos_x + attack_range / 64)
  let min_y := Int.floor (pos_y - attack_range / 64)
  let max_y := Int.ceil (pos_y + attack_range / 64)
  let hits := ((intRangeIncl min_x max_x).map fun x =>
    ((intRangeIncl min_y max_y).filter fun y =>
      decide (Node.new x y ∈ path_hash)).length).sum
  let sell_value : ℚ := 1 - (1 / 10) * (hits : ℚ)
  { cfg with sell_values := upsert_sell_value cfg.sell_values defender_node sell_value }

/-- Recompute section of `perform_an_action` (defender_controller.rs lines
282-364): refresh the cached path, path hash, adjacency field, damage
estimate and sell values whenever the field changed or on first run. -/
def perform_recompute (fld : TowerField) (env : PerformEnv)
    (st : PerformState) : PerformState :=
  if env.field_modified || !st.initialized then
    let cfg := st.cfg
    let cfg :=
      match a_star fld fld.get_start fld.get_end env.fuel with
      | some path =>
        { cfg with path_hash := path.get_nodes,
                   path_length := (path.get_size : ℚ), path := path }
      | none => cfg
    let cfg := { cfg with path_distance := env.actual_distance }
    let stats := { st.stats with closest_distance_to_end := env.actual_distance }
    let af := compute_adjacency_field fld cfg.path_hash
    let cfg := { cfg with estimated_damage_potential := 0 }
    let cfg := env.defenders.foldl (recompute_defender_step env af cfg.path_hash) cfg
    let cfg := { cfg with sell_values :=
      cfg.sell_values.mergeSort fun a b => decide (a.weight ≤ b.weight) }
    { st with cfg := cfg, stats := stats, adjacency_field := af, initialized := true }
  else st

/-- Mirrors the `distance_factor` computation (defender_controller.rs lines
377-381). -/
def distance_factor (cfg : DefenderConfiguration) (closest : ℚ) : ℚ :=
  (if cfg.path_distance ≠ 0 then closest / cfg.path_distance else 1) + 1

/-- Mirrors `wall_score` (defender_controller.rs lines 384-388).  Note: when
`estimated_damage_needed = 0` the Rust `f32` division yields an infinity or
NaN; the configuration initializes it to `1000` and it is only overwritten by
`damage_dealt * 1.10`. -/
def wall_score (cfg : DefenderConfiguration) (closest : ℚ) : ℚ :=
  cfg.estimated_damage_potential / cfg.estimated_damage_needed *
    (if cfg.can_build_wall then 1 else -1000) *
    (distance_factor cfg closest * (5 / 10)) /
    max (cfg.get_wall_factor * (2 / 10)) 1 * cfg.wall_weight

/-- Mirrors `defender_score` (defender_controller.rs lines 390-394). -/
def defender_score (cfg : DefenderConfiguration) (closest : ℚ) : ℚ :=
  max (1 - cfg.estimated_damage_potential / cfg.estimated_damage_needed) 1 *
    (if cfg.can_build_tower then 1 else -1000) *
    distance_factor cfg closest *
    max (cfg.get_wall_factor * (2 / 10)) 1 * cfg.damage_weight

/-- Mirrors `best_sell_score` (defender_controller.rs line 395). -/
def best_sell_score (cfg : DefenderConfiguration) : ℚ :=
  (match cfg.sell_values.getLast? with
   | some e => e.weight
   | none => 0) * cfg.sell_weight

/-- Decision section of `perform_an_action` (defender_controller.rs lines
369-432): on cooldown fire, pick the pending tower type if none, compute the
scores, and execute the branch selected by `max_index` (which is called on
`[wall_score, defender_score]` only; the `best_score == 2` branch is empty in
the source).  `gen_range(0..len)` is modelled by an arbitrary externally
supplied draw reduced mod `len`. -/
def perform_decide (fld : TowerField) (env : PerformEnv)
    (st : PerformState) : PerformState :=
  if ¬env.cooldown_just_finished then st
  else
    let next_tower :=
      match st.next_tower with
      | none => some (if env.cannon_roll then BuildingType.Cannon else BuildingType.Arrow)
      | some t => some t
    let st := { st with next_tower := next_tower }
    let wscore := wall_score st.cfg st.stats.closest_distance_to_end
    let dscore := defender_score st.cfg st.stats.closest_distance_to_end
    let best_score := max_index [wscore, dscore]
    if best_score = 0 then
      let potential_walls := get_wall_build_actions 5 10 fld st.cfg env.fuel
      if potential_walls.isEmpty then
        { st with cfg := { st.cfg with can_build_wall := false } }
      else
        let weighted_node :=
          potential_walls.getD (env.wall_pick % potential_walls.length) ⟨Node.new 0 0, 0⟩
        let r := buy_structure st.resources (env.presets BuildingType.Wall) weighted_node.node
        if r.1 then
          { st with resources := r.2,
                    cfg := { st.cfg with num_walls := st.cfg.num_walls + 1 } }
        else
          { st with resources := r.2 }
    else if best_score = 1 then
      let potential_defenders := get_defender_build_actions 3 10 st.adjacency_field fld
        st.cfg (next_tower.getD BuildingType.Arrow) env.fuel
      if potential_defenders.isEmpty then
        { st with cfg := { st.cfg with can_build_tower := false } }
      else
        let action := potential_defenders.getD
          (env.tower_pick % potential_defenders.length) (Node.new 0 0, BuildingType.Arrow)
        let r := buy_structure st.resources (env.presets action.2) action.1
        if r.1 then
          { st with resources := r.2, next_tower := none,
                    cfg := { st.cfg with num_defenders := st.cfg.num_defenders + 1 } }
        else
          { st with resources := r.2 }
    else
      st

/-- Full `perform_an_action` system body: recompute section followed by the
cooldown-gated decision section. -/
def perform_an_action (fld : TowerField) (env : PerformEnv)
    (st : PerformState) : PerformState :=
  perform_decide fld env (perform_recompute fld env st)

/-! ## Attackers and economy: `src/world/attackers.rs`,
`src/world/attacker_controller.rs`, `src/world/defender_controller.rs` -/

/-- Two-dimensional vector with exact coordinates (`Vec2`). -/
structure Vec2Q where
  x : ℚ
  y : ℚ
deriving DecidableEq, Repr

/-- Three-dimensional vector with exact coordinates (`Vec3`). -/
structure Vec3Q where
  x : ℚ
  y : ℚ
  z : ℚ
deriving DecidableEq, Repr

/-- Mirrors bevy `Transform` (only the translation matters to the core). -/
structure Transform where
  translation : Vec3Q
deriving DecidableEq, Repr

/-- Mirrors `Attacker` in attackers.rs. -/
structure Attacker where
  health : ℚ
  max_health : ℚ
  movement_speed : ℚ
  velocity : Vec2Q
  size : Vec2Q
  bounty : Int
  original_cost : Int
  num_summoned : Int
deriving DecidableEq, Repr

/-- Mirrors `SLOT_SIZE` in towers.rs. -/
def SLOT_SIZE : Nat := 64

/-- Rust `as usize` conversion of an `i32` (two's-complement wrap). -/
def intAsUsize (i : Int) : Nat := (i % (USIZE : Int)).toNat

/-- Mirrors `TowerField::get_start_transform`: the start cell scaled by
`SLOT_SIZE` (via `as usize` conversion), z = 1. -/
def TowerField.get_start_transform (fld : TowerField) : Transform :=
  ⟨⟨((intAsUsize fld.start.x * SLOT_SIZE) % USIZE : Nat),
    ((intAsUsize fld.start.y * SLOT_SIZE) % USIZE : Nat), 1⟩⟩

/-- Mirrors `EntityReachedEnd` in events.rs (the entity reference is an id). -/
structure EntityReachedEnd where
  entity : Nat
  bounty : Int
deriving DecidableEq, Repr

/-- An attacker entity as seen by `check_reached_end`: its id, transform,
attacker stats, and its optional `Path` component. -/
structure AttackerUnit where
  id : Nat
  transform : Transform
  attacker : Attacker
  path : Option Path
deriving DecidableEq, Repr

/-- Squared Euclidean distance of two planar points. -/
def dist_sq (a b : Vec2Q) : ℚ :=
  (a.x - b.x) ^ 2 + (a.y - b.y) ^ 2

/-- The goal test of `check_reached_end` (attackers.rs lines 284-287):
`target_vec.distance(entity_vec) <= 5.`, stated equivalently on squared
distances (exact over `ℚ`, avoiding the `f32` square root). -/
def reached_end_cond (fld : TowerField) (u : AttackerUnit) : Bool :=
  let goal := fld.get_end
  let target_vec : Vec2Q := ⟨(goal.x : ℚ) * (SLOT_SIZE : ℚ), (goal.y : ℚ) * (SLOT_SIZE : ℚ)⟩
  let entity_vec : Vec2Q := ⟨u.transform.translation.x, u.transform.translation.y⟩
  decide (dist_sq target_vec entity_vec ≤ 25)

/-- Mirrors `check_reached_end` (attackers.rs lines 277-296): every attacker
within 5 world units of the end cell is teleported to the start transform,
loses its `Path` component, and emits an `EntityReachedEnd` event carrying
its bounty. -/
def check_reached_end (fld : TowerField) :
    List AttackerUnit → List AttackerUnit × List EntityReachedEnd
  | [] => ([], [])
  | u :: rest =>
    let r := check_reached_end fld rest
    if reached_end_cond fld u then
      ({ u with transform := fld.get_start_transform, path := none } :: r.1,
       ⟨u.id, u.attacker.bounty⟩ :: r.2)
    else
      (u :: r.1, r.2)

/-- Mirrors `AttackerResource` in attacker_controller.rs. -/
structure AttackerResource where
  gold : Int
  current_bounty : Int
deriving DecidableEq, Repr

/-- Mirrors `listen_to_reached_end` (attacker_controller.rs lines 33-40):
each reached-end event adds its bounty to attacker-side gold. -/
def listen_to_reached_end (events : List EntityReachedEnd)
    (res : AttackerResource) : AttackerResource :=
  events.foldl (fun r ev => { r with gold := r.gold + ev.bounty }) res

/-- Mirrors `listen_goals` (defender_controller.rs lines 246-253): each
reached-end event costs the defender one life. -/
def listen_goals (events : List EntityReachedEnd)
    (res : ResourceStore) : ResourceStore :=
  events.foldl (fun r _ => { r with lives := r.lives - 1 }) res

/-! ## Specification-level notions -/

/-- Two cells are 4-adjacent when they differ by exactly 1 in exactly one
coordinate, i.e. their Manhattan distance is 1. -/
def Adjacent (a b : Node) : Prop := distance a b = 1

/-- The node chain stored in a search node: ancestors (root first), then the
node itself.  `get_path` returns exactly this list. -/
def chainOf (h : HierarchicalNode) : List Node := h.ancestors ++ [h.node]

/-- A node lies inside a `w × h` field. -/
def InField (w h : Nat) (n : Node) : Prop :=
  0 ≤ n.x ∧ n.x < (w : Int) ∧ 0 ≤ n.y ∧ n.y < (h : Int)

/-- A well-formed route from `s` to `e`: starts at `s`, ends at `e`, moves by
4-adjacent steps, and never repeats a cell. -/
def ValidRoute (s e : Node) (l : List Node) : Prop :=
  l.head? = some s ∧ l.getLast? = some e ∧ List.Chain' Adjacent l ∧ l.Nodup

/-- Structural invariant of every search node held in the open or closed
list during `a_star_with_blocked_node`, relative to the set `cn` of closed
node cells: its chain starts at `s`, is a 4-adjacent duplicate-free walk
ending at its own cell, never touches `e`, and all its proper ancestors are
closed. -/
structure GoodH (s e : Node) (cn : List Node) (h : HierarchicalNode) : Prop where
  head_start : (chainOf h).head? = some s
  chain_adj : List.Chain' Adjacent (chainOf h)
  nodup : (chainOf h).Nodup
  no_end : e ∉ chainOf h
  anc_mem : ∀ x ∈ h.ancestors, x ∈ cn

/-- Score invariant of open entries: `f = g + heuristic`, except for the
initial entry for `s`, which is created with `f = g = 0`. -/
def FOK (s e : Node) (x : HierarchicalNode) : Prop :=
  x.f = x.g + distance x.node e ∨ (x.node = s ∧ x.g = 0 ∧ x.f = 0)

/-- One axis step toward a target coordinate. -/
def stepToward (a b : Int) : Int :=
  if a < b then a + 1 else if b < a then a - 1 else a

/-- The canonical monotone staircase from `s` to `e`: advance `x` until it
matches, then advance `y`.  Used as the reference optimal route on an
unblocked field. -/
def walkNode (s e : Node) : Nat → Node
  | 0 => s
  | i + 1 =>
    let p := walkNode s e i
    if p.x ≠ e.x then ⟨stepToward p.x e.x, p.y⟩ else ⟨p.x, stepToward p.y e.y⟩

/-! ## Concrete scenario data used by witnesses and counterexamples -/

/-- A 2×1 field whose start and end are horizontally adjacent. -/
def tinyField : TowerField := TowerField.new 2 1 (Node.new 0 0) (Node.new 1 0)

/-- A 2×2 field whose top-right start slot is blocked. -/
def blockedField : TowerField :=
  ⟨[⟨true, false⟩, ⟨false, false⟩, ⟨false, false⟩, ⟨false, false⟩], 2, 2,
   Node.new 0 0, Node.new 1 1⟩

/-- The 16×16 scenario field of the specification: start (2,0), end (14,15),
no structures. -/
def scenarioField : TowerField := TowerField.new 16 16 (Node.new 2 0) (Node.new 14 15)

/-- The 5×5 field of the wall-candidate generation scenario: start (1,2),
end (4,2), no structures. -/
def c6Field : TowerField := TowerField.new 5 5 (Node.new 1 2) (Node.new 4 2)

/-- The straight route found by `a_star` on `c6Field`. -/
def c6Path : Path := ⟨[Node.new 1 2, Node.new 2 2, Node.new 3 2, Node.new 4 2], 0⟩

/-- The decision-engine state after recomputation on `c6Field`. -/
def c6Cfg : DefenderConfiguration :=
  { DefenderConfiguration.initial with path := c6Path, path_hash := c6Path.get_nodes }

/-- The candidate stream walked by `get_wall_build_actions` on `c6Cfg`. -/
def c6Cands : List Node := (c6Cfg.path.get_nodes.map get_self_with_successors).flatten

/-- The kept candidate list of the 5×5 scenario once the cap of 5 is
reached (after the first 8 candidates). -/
def c6KeptResults : List WeightedNode :=
  [⟨Node.new 0 2, 4⟩, ⟨Node.new 2 2, 6⟩, ⟨Node.new 1 3, 4⟩,
   ⟨Node.new 1 1, 4⟩, ⟨Node.new 3 2, 6⟩]

/-- A decision-engine state whose sell score strictly dominates both build
scores: no damage potential (so the wall score is 0 and the defender score is
positive but small) and one sell candidate of weight 100. -/
def c5Cfg : DefenderConfiguration :=
  { DefenderConfiguration.initial with sell_values := [⟨Node.new 0 0, 100⟩] }

/-- A decision step environment whose cooldown has just fired. -/
def c5Env : PerformEnv :=
  { field_modified := false
    actual_distance := 0
    defenders := []
    dps := fun _ => 0
    cooldown_just_finished := true
    cannon_roll := false
    wall_pick := 0
    tower_pick := 0
    fuel := 10
    presets := fun t => ⟨t, 0, false, 50, true⟩ }

/-- The full engine state around `c5Cfg`. -/
def c5St : PerformState :=
  { cfg := c5Cfg
    stats := ⟨0, 0, 0, 0⟩
    resources := ⟨200, 50⟩
    adjacency_field := []
    next_tower := none
    initialized := true }

/-- An environment whose cooldown has not fired this tick. -/
def c9IdleEnv : PerformEnv := { c5Env with cooldown_just_finished := false }

/-- A configuration in which only the wall branch can win (tower building
already disabled) and no path is cached, so the wall candidate list is empty. -/
def c9WallCfg : DefenderConfiguration :=
  { DefenderConfiguration.initial with can_build_tower := false }

/-- The engine state around `c9WallCfg`. -/
def c9WallSt : PerformState :=
  { cfg := c9WallCfg
    stats := ⟨0, 0, 0, 0⟩
    resources := ⟨200, 50⟩
    adjacency_field := []
    next_tower := none
    initialized := true }

/-- The orc warrior stats `ORC_WARRIOR_STATS` of attackers.rs: bounty 10,
original cost 20, group size 1. -/
def ORC_WARRIOR_STATS : Attacker :=
  { health := 140
    max_health := 140
    movement_speed := 26
    velocity := ⟨0, 0⟩
    size := ⟨26, 36⟩
    bounty := 10
    original_cost := 20
    num_summoned := 1 }

/-- An orc warrior 4 world units west of the end cell of `tinyField`,
with a live path. -/
def c10Unit : AttackerUnit :=
  { id := 7
    transform := ⟨⟨60, 0, 1⟩⟩
    attacker := ORC_WARRIOR_STATS
    path := some (Path.mk [Node.new 0 0, Node.new 1 0] 0) }

/-- Full loop invariant of the A* search used to prove completeness and
optimality on an unblocked field: every entry is structurally good, its `g`
counts its chain's edges, open entries satisfy the `f = g + heuristic` rule
(modulo the initial start entry), every touched cell is in the field, open
and closed cell sets are duplicate-free and disjoint, and the open list
holds a witness sitting on the canonical staircase with a `g` no worse than
its staircase index, all staircase cells beyond the witness being unexplored. -/
structure AStarInv (w h : Nat) (s e : Node) (op closed : List HierarchicalNode) :
    Prop where
  good : ∀ x ∈ op ++ closed, GoodH s e (closed.map HierarchicalNode.node) x
  entry_g : ∀ x ∈ op ++ closed, x.g = x.ancestors.length
  entry_f : ∀ x ∈ op, FOK s e x
  entry_field : ∀ x ∈ op ++ closed, InField w h x.node
  open_nodes : (op.map HierarchicalNode.node).Nodup
  open_closed : ∀ x ∈ op, x.node ∉ closed.map HierarchicalNode.node
  closed_nodes : (closed.map HierarchicalNode.node).Nodup
  witness : ∃ hw ∈ op, ∃ i : Nat, i < distance s e ∧ walkNode s e i = hw.node ∧
    hw.g ≤ i ∧ ∀ j : Nat, i < j → j < distance s e →
      walkNode s e j ∉ closed.map HierarchicalNode.node

/-! ## Basic lemmas -/

theorem increment_index_mod (len : Nat) (h1 : len ≠ 0) (h2 : len < USIZE) :
    (len + USIZE - 1) % USIZE = len - 1 := by
  unfold USIZE at *
  omega

theorem increment_index_route (p : Path) :
    (Path.increment_index p).route = p.route := by
  unfold Path.increment_index
  split <;> rfl

theorem increment_index_lt (p : Path) (h1 : p.route ≠ []) (h2 : p.route.length < USIZE)
    (h3 : p.current_index < p.route.length) :
    (Path.increment_index p).current_index < p.route.length := by
  have hlen : p.route.length ≠ 0 := fun hl => h1 (List.length_eq_zero.mp hl)
  unfold Path.increment_index
  rw [increment_index_mod p.route.length hlen h2]
  split <;> simp <;> omega

/-! ## C8: cursor invariant of `Path.increment_index` -/

/-- C8 counterexample: on the empty `Path`, a single `increment_index`
moves the cursor from 0 to 1 (the `usize` expression `len - 1` wraps to
`2^64 - 1`), so the cursor does not stay at index 0 as the claim states. -/
theorem c8_empty_path_cursor_escapes :
    (Path.increment_index Path.empty).current_index = 1 ∧
    Path.increment_index Path.empty ≠ Path.empty := by
  constructor
  · decide
  · decide

/-- C8 (amended): for every Path with a nonempty route (of any realizable
length), iterating `increment_index` keeps the cursor strictly below the
route length, and incrementing at the final index is a no-op.  The empty
Path is excluded: there `len - 1` underflows and the cursor escapes, see the
counterexample. -/
theorem c8_cursor_invariant (p : Path) (h1 : p.route ≠ [])
    (h2 : p.route.length < USIZE) (h3 : p.current_index < p.route.length) :
    (∀ n : Nat, (Path.increment_index^[n] p).current_index < p.route.length) ∧
    (p.current_index = p.route.length - 1 → Path.increment_index p = p) := by
  constructor
  · intro n
    induction n generalizing p with
    | zero => simpa using h3
    | succ m ih =>
      rw [Function.iterate_succ_apply]
      have hr := increment_index_route p
      have := ih (Path.increment_index p) (by rw [hr]; exact h1) (by rw [hr]; exact h2)
        (by rw [hr]; exact increment_index_lt p h1 h2 h3)
      rwa [hr] at this
  · intro hfin
    have hlen : p.route.length ≠ 0 := fun hl => h1 (List.length_eq_zero.mp hl)
    unfold Path.increment_index
    rw [increment_index_mod p.route.length hlen h2]
    split
    · omega
    · rfl

/-- C8 witness: a two-node path with the cursor at the final index. -/
theorem c8_cursor_invariant_witness :
    (∀ n : Nat,
      (Path.increment_index^[n] (Path.mk [Node.new 0 0, Node.new 1 0] 1)).current_index
        < (Path.mk [Node.new 0 0, Node.new 1 0] 1).route.length) ∧
    Path.increment_index (Path.mk [Node.new 0 0, Node.new 1 0] 1) =
      Path.mk [Node.new 0 0, Node.new 1 0] 1 := by
  have h := c8_cursor_invariant (Path.mk [Node.new 0 0, Node.new 1 0] 1)
    (by decide) (by decide) (by decide)
  exact ⟨h.1, h.2 (by decide)⟩

/-! ## C7: the open-set merge rule `replace_if_better` -/

theorem replace_if_better_go_no_match (new_node : HierarchicalNode) (found : Bool)
    (xs : List HierarchicalNode) (h : ∀ y ∈ xs, y.node ≠ new_node.node) :
    replace_if_better_go new_node found xs = if found then xs else xs ++ [new_node] := by
  induction xs generalizing found with
  | nil => cases found <;> simp [replace_if_better_go]
  | cons x t ih =>
    have hx : x.node ≠ new_node.node := h x (List.mem_cons_self x t)
    have ht : ∀ y ∈ t, y.node ≠ new_node.node := fun y hy => h y (List.mem_cons_of_mem x hy)
    cases found <;> simp [replace_if_better_go, hx, ih _ ht]

theorem replace_if_better_of_no_match (list : List HierarchicalNode)
    (new_node : HierarchicalNode) (h : ∀ y ∈ list, y.node ≠ new_node.node) :
    replace_if_better list new_node = list ++ [new_node] := by
  simpa using replace_if_better_go_no_match new_node false list h

theorem replace_if_better_of_match (list : List HierarchicalNode)
    (new_node : HierarchicalNode) (hnd : (list.map HierarchicalNode.node).Nodup) :
    ∀ i (hi : i < list.length), (list.get ⟨i, hi⟩).node = new_node.node →
      (new_node.f < (list.get ⟨i, hi⟩).f ∧
        replace_if_better list new_node = list.set i new_node) ∨
      ((list.get ⟨i, hi⟩).f ≤ new_node.f ∧ replace_if_better list new_node = list) := by
  induction list with
  | nil => intro i hi; simp at hi
  | cons x t ih =>
    intro i hi hmatch
    have hnd1 : x.node ∉ t.map HierarchicalNode.node := (List.nodup_cons.mp hnd).1
    have hnd2 : (t.map HierarchicalNode.node).Nodup := (List.nodup_cons.mp hnd).2
    cases i with
    | zero =>
      simp only [List.get] at hmatch
      by_cases hf : new_node.f < x.f
      · left
        refine ⟨hf, ?_⟩
        simp [replace_if_better, replace_if_better_go, hmatch, hf]
      · right
        refine ⟨by simpa using le_of_not_lt hf, ?_⟩
        have ht : ∀ y ∈ t, y.node ≠ new_node.node := by
          intro y hy hcon
          exact hnd1 (by rw [hmatch, ← hcon]; exact List.mem_map_of_mem _ hy)
        simp [replace_if_better, replace_if_better_go, hmatch, hf,
          replace_if_better_go_no_match new_node true t ht]
    | succ j =>
      have hj : j < t.length := by simpa using hi
      simp only [List.get] at hmatch
      have hx : x.node ≠ new_node.node := by
        intro hcon
        exact hnd1 (by
          rw [hcon, ← hmatch]
          exact List.mem_map_of_mem _ (t.get_mem j hj))
      have := ih hnd2 j hj hmatch
      rcases this with ⟨hlt, heq⟩ | ⟨hle, heq⟩
      · left
        refine ⟨hlt, ?_⟩
        simp only [replace_if_better, replace_if_better_go, hx, false_and, if_false,
          List.set]
        simp only [replace_if_better] at heq
        simp [hx, heq]
      · right
        refine ⟨hle, ?_⟩
        simp only [replace_if_better] at heq ⊢
        simp [replace_if_better_go, hx, heq]

/-- C7 counterexample: an open entry with the same cell and an equal `f`
is kept, not overwritten — `replace_if_better` only overwrites when the
existing `f` is strictly greater than the successor's. -/
theorem c7_equal_f_is_kept :
    replace_if_better [⟨Node.new 0 0, [], 5, 0⟩] ⟨Node.new 0 0, [Node.new 1 0], 5, 1⟩ =
      [⟨Node.new 0 0, [], 5, 0⟩] ∧
    (⟨Node.new 0 0, [], 5, 0⟩ : HierarchicalNode) ≠ ⟨Node.new 0 0, [Node.new 1 0], 5, 1⟩ := by
  constructor
  · decide
  · decide

/-- C7 (amended): when the successor's cell is already open (the open list
never holds two entries for one cell), the existing entry is kept whenever
its `f` is less than or equal to the successor's `f`, and overwritten
exactly when its `f` is strictly greater; a cell not yet open is appended. -/
theorem c7_replace_if_better_rule (list : List HierarchicalNode)
    (new_node : HierarchicalNode) (hnd : (list.map HierarchicalNode.node).Nodup) :
    ((∀ y ∈ list, y.node ≠ new_node.node) →
      replace_if_better list new_node = list ++ [new_node]) ∧
    (∀ i (hi : i < list.length), (list.get ⟨i, hi⟩).node = new_node.node →
      (new_node.f < (list.get ⟨i, hi⟩).f →
        replace_if_better list new_node = list.set i new_node) ∧
      ((list.get ⟨i, hi⟩).f ≤ new_node.f → replace_if_better list new_node = list)) := by
  constructor
  · exact replace_if_better_of_no_match list new_node
  · intro i hi hmatch
    have h := replace_if_better_of_match list new_node hnd i hi hmatch
    constructor
    · intro hlt
      rcases h with ⟨_, heq⟩ | ⟨hle, _⟩
      · exact heq
      · omega
    · intro hle
      rcases h with ⟨hlt, _⟩ | ⟨_, heq⟩
      · omega
      · exact heq

/-- C7 witness: concrete append, keep and overwrite cases. -/
theorem c7_replace_if_better_rule_witness :
    replace_if_better [⟨Node.new 0 0, [], 5, 0⟩] ⟨Node.new 2 2, [], 7, 1⟩ =
      [⟨Node.new 0 0, [], 5, 0⟩, ⟨Node.new 2 2, [], 7, 1⟩] ∧
    replace_if_better [⟨Node.new 0 0, [], 5, 0⟩] ⟨Node.new 0 0, [], 7, 1⟩ =
      [⟨Node.new 0 0, [], 5, 0⟩] ∧
    replace_if_better [⟨Node.new 0 0, [], 9, 0⟩] ⟨Node.new 0 0, [], 7, 1⟩ =
      [⟨Node.new 0 0, [], 7, 1⟩] := by
  refine ⟨?_, ?_, ?_⟩
  · exact (c7_replace_if_better_rule [⟨Node.new 0 0, [], 5, 0⟩] ⟨Node.new 2 2, [], 7, 1⟩
      (by decide)).1 (by decide)
  · exact ((c7_replace_if_better_rule [⟨Node.new 0 0, [], 5, 0⟩] ⟨Node.new 0 0, [], 7, 1⟩
      (by decide)).2 0 (by decide) (by decide)).2 (by decide)
  · exact ((c7_replace_if_better_rule [⟨Node.new 0 0, [], 9, 0⟩] ⟨Node.new 0 0, [], 7, 1⟩
      (by decide)).2 0 (by decide) (by decide)).1 (by decide)

/-! ## C3: precondition failures return no-path -/

/-- C3: `a_star_with_blocked_node` (and hence `a_star`) returns `none` — and
in this total embedding cannot panic — whenever the hypothetically blocked
cell coincides with the start or end, the start or end is outside the field,
the start or end is blocked, or the start equals the end. -/
theorem c3_precondition_failures (fld : TowerField) (s e : Node) (b : Option Node)
    (fuel : Nat) :
    ((b = some s ∨ b = some e) → a_star_with_blocked_node fld s e b fuel = none) ∧
    (is_outside_field s fld = true → a_star_with_blocked_node fld s e b fuel = none) ∧
    (is_outside_field e fld = true → a_star_with_blocked_node fld s e b fuel = none) ∧
    (fld.is_node_blocked s = true → a_star_with_blocked_node fld s e b fuel = none) ∧
    (fld.is_node_blocked e = true → a_star_with_blocked_node fld s e b fuel = none) ∧
    (s = e → a_star_with_blocked_node fld s e b fuel = none) := by
  unfold a_star_with_blocked_node
  refine ⟨?_, ?_, ?_, ?_, ?_, ?_⟩ <;> intro h <;> (repeat' split) <;> simp_all

/-- C3 witness: each precondition violated at a concrete call. -/
theorem c3_precondition_failures_witness :
    a_star_with_blocked_node tinyField (Node.new 0 0) (Node.new 1 0)
      (some (Node.new 0 0)) 9 = none ∧
    a_star_with_blocked_node tinyField (Node.new 5 0) (Node.new 1 0) none 9 = none ∧
    a_star_with_blocked_node tinyField (Node.new 0 0) (Node.new 1 5) none 9 = none ∧
    a_star_with_blocked_node blockedField (Node.new 0 0) (Node.new 1 1) none 9 = none ∧
    a_star_with_blocked_node blockedField (Node.new 1 1) (Node.new 0 0) none 9 = none ∧
    a_star_with_blocked_node tinyField (Node.new 0 0) (Node.new 0 0) none 9 = none :=
  ⟨(c3_precondition_failures tinyField (Node.new 0 0) (Node.new 1 0)
      (some (Node.new 0 0)) 9).1 (Or.inl rfl),
   (c3_precondition_failures tinyField (Node.new 5 0) (Node.new 1 0) none 9).2.1 (by decide),
   (c3_precondition_failures tinyField (Node.new 0 0) (Node.new 1 5) none 9).2.2.1 (by decide),
   (c3_precondition_failures blockedField (Node.new 0 0) (Node.new 1 1) none 9).2.2.2.1
     (by decide),
   (c3_precondition_failures blockedField (Node.new 1 1) (Node.new 0 0) none 9).2.2.2.2.1
     (by decide),
   (c3_precondition_failures tinyField (Node.new 0 0) (Node.new 0 0) none 9).2.2.2.2.2 rfl⟩

/-! ## C5: branch selection of the decision step -/

theorem max_index_pair (w d : ℚ) :
    max_index [w, d] = if w < d ∧ F32_MIN_Q < d then 1 else 0 := by
  by_cases h1 : F32_MIN_Q < w
  · by_cases h2 : w < d
    · have h3 : F32_MIN_Q < d := lt_trans h1 h2
      simp [max_index, max_index_go, h1, h2, h3]
    · simp [max_index, max_index_go, h1, h2]
  · by_cases h3 : F32_MIN_Q < d
    · have h2 : w < d := lt_of_le_of_lt (le_of_not_lt h1) h3
      simp [max_index, max_index_go, h1, h2, h3]
    · simp [max_index, max_index_go, h1, h3]

/-- C5 counterexample: a state whose sell score (100) strictly dominates both
the wall score (0) and the defender score (14/5), yet the decision step
executes the defender branch — observable because it flips
`can_build_tower` to false, which the (empty) sell branch never does.
`max_index` is called on `[wall_score, defender_score]` only; the
`best_score == 2` (sell) branch is unreachable. -/
theorem c5_sell_not_selected :
    wall_score c5Cfg c5St.stats.closest_distance_to_end = 0 ∧
    defender_score c5Cfg c5St.stats.closest_distance_to_end = 14 / 5 ∧
    best_sell_score c5Cfg = 100 ∧
    c5St.cfg.can_build_tower = true ∧
    (perform_decide tinyField c5Env c5St).cfg.can_build_tower = false := by
  have hw : wall_score c5Cfg c5St.stats.closest_distance_to_end = 0 := by
    simp [wall_score, c5Cfg, c5St, DefenderConfiguration.initial,
      DefenderConfiguration.get_wall_factor, distance_factor]
  have hd : defender_score c5Cfg c5St.stats.closest_distance_to_end = 14 / 5 := by
    simp [defender_score, c5Cfg, c5St, DefenderConfiguration.initial,
      DefenderConfiguration.get_wall_factor, distance_factor]
    norm_num
  have hs : best_sell_score c5Cfg = 100 := by
    simp [best_sell_score, c5Cfg, DefenderConfiguration.initial]
  refine ⟨hw, hd, hs, rfl, ?_⟩
  have hsel : max_index [wall_score c5Cfg c5St.stats.closest_distance_to_end,
      defender_score c5Cfg c5St.stats.closest_distance_to_end] = 1 := by
    rw [hw, hd, max_index_pair]
    norm_num [F32_MIN_Q]
  unfold perform_decide
  simp only [c5Env, c5St] at hsel ⊢
  rw [hsel]
  simp [c5Cfg, get_defender_build_actions, get_wall_build_actions,
    DefenderConfiguration.initial, Path.empty, Path.get_nodes]

/-- C5 (amended): the decision step selects only between the wall score
(index 0) and the defender score (index 1): `max_index` is applied to the
two-element array `[wall_score, defender_score]`, index 2 (sell) is never
produced, ties favor the wall branch, and the sell branch of
`perform_decide` is dead code. -/
theorem c5_branch_selection (w d : ℚ) :
    max_index [w, d] ≠ 2 ∧
    max_index [w, d] = if w < d ∧ F32_MIN_Q < d then 1 else 0 := by
  refine ⟨?_, max_index_pair w d⟩
  rw [max_index_pair w d]
  split <;> omega

/-! ## C6: replacement once the kept candidate list is full -/

theorem min_weight_index_go_stay (rs : List WeightedNode) (j : Nat) (idx : Option Nat)
    (mn : ℚ) (h : ∀ r ∈ rs, ¬(r.weight < mn)) :
    min_weight_index_go rs j idx mn = idx := by
  induction rs generalizing j idx mn with
  | nil => rfl
  | cons r rest ih =>
    have hr : ¬(r.weight < mn) := h r (List.mem_cons_self r rest)
    simp only [min_weight_index_go, if_neg hr]
    exact ih (j + 1) idx mn fun y hy => h y (List.mem_cons_of_mem r hy)

theorem min_weight_index_go_found (rs : List WeightedNode) :
    ∀ (j : Nat) (idx : Option Nat) (mn : ℚ), (∃ r ∈ rs, r.weight < mn) →
      ∃ k, ∃ hk : k < rs.length, min_weight_index_go rs j idx mn = some (j + k) ∧
        (∀ r ∈ rs, (rs.get ⟨k, hk⟩).weight ≤ r.weight) ∧
        (rs.get ⟨k, hk⟩).weight < mn := by
  induction rs with
  | nil => intro j idx mn h; simp at h
  | cons r rest ih =>
    intro j idx mn h
    by_cases hr : r.weight < mn
    · by_cases hrest : ∃ y ∈ rest, y.weight < r.weight
      · obtain ⟨k', hk', heq, hmin, hlt⟩ := ih (j + 1) (some j) r.weight hrest
        refine ⟨k' + 1, by simpa using Nat.succ_lt_succ hk', ?_, ?_, ?_⟩
        · simp only [min_weight_index_go, if_pos hr]
          rw [heq]
          congr 1
          omega
        · intro x hx
          rcases List.mem_cons.mp hx with rfl | hx'
          · exact le_of_lt hlt
          · exact hmin x hx'
        · exact lt_trans hlt hr
      · push_neg at hrest
        refine ⟨0, by simp, ?_, ?_, by simpa using hr⟩
        · simp only [min_weight_index_go, if_pos hr]
          rw [min_weight_index_go_stay rest (j + 1) (some j) r.weight
            (fun y hy => not_lt.mpr (hrest y hy))]
          simp
        · intro x hx
          rcases List.mem_cons.mp hx with rfl | hx'
          · simp
          · simpa using hrest x hx'
    · have hrest : ∃ y ∈ rest, y.weight < mn := by
        rcases h with ⟨y, hy, hylt⟩
        rcases List.mem_cons.mp hy with rfl | hy'
        · exact absurd hylt hr
        · exact ⟨y, hy', hylt⟩
      obtain ⟨k', hk', heq, hmin, hlt⟩ := ih (j + 1) idx mn hrest
      refine ⟨k' + 1, by simpa using Nat.succ_lt_succ hk', ?_, ?_, by simpa using hlt⟩
      · simp only [min_weight_index_go, if_neg hr]
        rw [heq]
        congr 1
        omega
      · intro x hx
        rcases List.mem_cons.mp hx with rfl | hx'
        · exact le_trans (le_of_lt hlt) (not_lt.mp hr)
        · exact hmin x hx'

theorem replace_min_weight_spec (rs : List WeightedNode) (wn : WeightedNode)
    (h : ∃ r ∈ rs, r.weight < F32_MAX_Q) :
    ∃ k, ∃ hk : k < rs.length, replace_min_weight rs wn = rs.set k wn ∧
      (∀ r ∈ rs, (rs.get ⟨k, hk⟩).weight ≤ r.weight) := by
  obtain ⟨k, hk, heq, hmin, _⟩ := min_weight_index_go_found rs 0 none F32_MAX_Q h
  refine ⟨k, hk, ?_, hmin⟩
  unfold replace_min_weight min_weight_index
  rw [heq]
  simp

theorem mem_replace_min_weight (rs : List WeightedNode) (wn x : WeightedNode)
    (h : x ∈ replace_min_weight rs wn) : x ∈ rs ∨ x = wn := by
  unfold replace_min_weight at h
  rcases hmin : min_weight_index rs with _ | j <;> rw [hmin] at h
  · exact Or.inl h
  · exact List.mem_or_eq_of_mem_set h

/-- C6 counterexample: on the 5×5 scenario field the kept list is full
(minimum weight 4) after the first 8 candidates; the 9th candidate (2,3) is
valid with weight 4 — not higher than the kept minimum — yet it replaces the
minimum-weight candidate ⟨(0,2),4⟩ instead of leaving the kept set
unchanged: the replacement step never compares the new weight against the
minimum. -/
theorem c6_nonhigher_candidate_replaces :
    a_star c6Field (Node.new 1 2) (Node.new 4 2) 60 = some c6Path ∧
    ((c6Cands.take 8).foldl (gwba_step c6Field c6Cfg 60 5 10) ⟨0, [], [], false⟩).results =
      [⟨Node.new 0 2, 4⟩, ⟨Node.new 2 2, 6⟩, ⟨Node.new 1 3, 4⟩,
       ⟨Node.new 1 1, 4⟩, ⟨Node.new 3 2, 6⟩] ∧
    c6Cands[8]? = some (Node.new 2 3) ∧
    get_wall_build_action c6Field c6Cfg (Node.new 2 3) 60 = some ⟨Node.new 2 3, 4⟩ ∧
    get_wall_build_actions 5 10 c6Field c6Cfg 60 =
      [⟨Node.new 2 3, 4⟩, ⟨Node.new 2 2, 6⟩, ⟨Node.new 1 3, 4⟩,
       ⟨Node.new 1 1, 4⟩, ⟨Node.new 3 2, 6⟩] := by
  refine ⟨by decide, by decide, by decide, by decide, by decide⟩

/-- C6 (amended): once the kept list is at the cap, a subsequent valid
candidate within the iteration budget always replaces a current
minimum-weight kept candidate, regardless of how its weight compares to that
minimum (the code never performs that comparison). -/
theorem c6_cap_replacement (fld : TowerField) (cfg : DefenderConfiguration)
    (fuel TMAX TITER : Nat) (st : WallGenState) (cand : Node) (wn : WeightedNode)
    (hstop : st.stopped = false) (hcap : ¬(st.results.length < TMAX))
    (hi : st.i + 1 < TITER) (hseen : cand ∉ st.seen)
    (hact : get_wall_build_action fld cfg cand fuel = some wn)
    (hwt : ∃ r ∈ st.results, r.weight < F32_MAX_Q) :
    ∃ k, ∃ hk : k < st.results.length,
      (gwba_step fld cfg fuel TMAX TITER st cand).results = st.results.set k wn ∧
      (∀ r ∈ st.results, (st.results.get ⟨k, hk⟩).weight ≤ r.weight) := by
  obtain ⟨k, hk, heq, hmin⟩ := replace_min_weight_spec st.results wn hwt
  refine ⟨k, hk, ?_, hmin⟩
  unfold gwba_step
  simp [hstop, hseen, hcap, hi, hact, heq]

/-- C6 witness: the 9th candidate of the 5×5 scenario replacing the
first minimum-weight entry of the full kept list. -/
theorem c6_cap_replacement_witness :
    ∃ k, ∃ hk : k < (WallGenState.mk 8 [] c6KeptResults false).results.length,
      (gwba_step c6Field c6Cfg 60 5 10 (WallGenState.mk 8 [] c6KeptResults false)
        (Node.new 2 3)).results =
        (WallGenState.mk 8 [] c6KeptResults false).results.set k ⟨Node.new 2 3, 4⟩ ∧
      ∀ r ∈ (WallGenState.mk 8 [] c6KeptResults false).results,
        ((WallGenState.mk 8 [] c6KeptResults false).results.get ⟨k, hk⟩).weight ≤ r.weight :=
  c6_cap_replacement c6Field c6Cfg 60 5 10 (WallGenState.mk 8 [] c6KeptResults false)
    (Node.new 2 3) ⟨Node.new 2 3, 4⟩ rfl (by decide) (by decide) (by decide) (by decide)
    ⟨⟨Node.new 0 2, 4⟩, by decide, by decide⟩

/-! ## C4: kept wall candidates never sever the path -/

theorem get_wall_build_action_spec (fld : TowerField) (cfg : DefenderConfiguration)
    (c : Node) (fuel : Nat) (wn : WeightedNode)
    (h : get_wall_build_action fld cfg c fuel = some wn) :
    wn.node = c ∧ 0 < wn.weight ∧
    ∃ p, a_star_with_blocked_node fld fld.get_start fld.get_end (some c) fuel = some p := by
  unfold get_wall_build_action at h
  split at h
  · exact absurd h (by simp)
  · rcases ha : a_star_with_blocked_node fld fld.get_start fld.get_end (some c) fuel with
      _ | p
    · rw [ha] at h
      simp at h
    · rw [ha] at h
      simp only [] at h
      split at h
      · rename_i hpos
        cases h
        exact ⟨rfl, hpos, p, rfl⟩
      · exact absurd h (by simp)

theorem gwba_step_results_pred (fld : TowerField) (cfg : DefenderConfiguration)
    (fuel TMAX TITER : Nat) (st : WallGenState) (cand : Node)
    (P : WeightedNode → Prop)
    (hP : ∀ c wn, get_wall_build_action fld cfg c fuel = some wn → P wn)
    (h : ∀ w ∈ st.results, P w) :
    ∀ w ∈ (gwba_step fld cfg fuel TMAX TITER st cand).results, P w := by
  intro w hw
  unfold gwba_step at hw
  dsimp only [] at hw
  split at hw
  · exact h w hw
  · split at hw
    · exact h w hw
    · split at hw
      · split at hw
        · rename_i wn heq
          rcases List.mem_append.mp hw with hw' | hw'
          · exact h w hw'
          · rw [List.mem_singleton.mp hw']
            exact hP _ _ heq
        · exact h w hw
      · split at hw
        · split at hw
          · rename_i wn heq
            rcases mem_replace_min_weight st.results wn w hw with hw' | rfl
            · exact h w hw'
            · exact hP _ _ heq
          · exact h w hw
        · exact h w hw

theorem foldl_gwba_results_pred (fld : TowerField) (cfg : DefenderConfiguration)
    (fuel TMAX TITER : Nat) (P : WeightedNode → Prop)
    (hP : ∀ c wn, get_wall_build_action fld cfg c fuel = some wn → P wn) :
    ∀ (cands : List Node) (st : WallGenState), (∀ w ∈ st.results, P w) →
      ∀ w ∈ (cands.foldl (gwba_step fld cfg fuel TMAX TITER) st).results, P w := by
  intro cands
  induction cands with
  | nil => intro st h; simpa using h
  | cons c rest ih =>
    intro st h
    simp only [List.foldl_cons]
    exact ih _ (gwba_step_results_pred fld cfg fuel TMAX TITER st c P hP h)

/-- C4: every candidate kept by wall/tower candidate generation has weight
strictly greater than 0, and the pathfinder called with that candidate
hypothetically blocked still returns a path; the tower candidate list
consists of exactly the wall candidates' nodes. -/
theorem c4_candidates_never_sever (TMAX TITER : Nat) (fld : TowerField)
    (cfg : DefenderConfiguration) (fuel : Nat) :
    (∀ wn ∈ get_wall_build_actions TMAX TITER fld cfg fuel,
      0 < wn.weight ∧
      ∃ p, a_star_with_blocked_node fld fld.get_start fld.get_end
        (some wn.node) fuel = some p) ∧
    (∀ (adjacency : List (Node × Int)) (bt : BuildingType)
        (a : Node × BuildingType),
      a ∈ get_defender_build_actions TMAX TITER adjacency fld cfg bt fuel →
      ∃ wn ∈ get_wall_build_actions TMAX TITER fld cfg fuel, a.1 = wn.node) := by
  constructor
  · intro wn hmem
    unfold get_wall_build_actions at hmem
    refine foldl_gwba_results_pred fld cfg fuel TMAX TITER
      (fun w => 0 < w.weight ∧
        ∃ p, a_star_with_blocked_node fld fld.get_start fld.get_end
          (some w.node) fuel = some p)
      ?_ _ _ (by simp) wn hmem
    intro c w hc
    obtain ⟨hnode, hpos, p, hp⟩ := get_wall_build_action_spec fld cfg c fuel w hc
    exact ⟨hpos, p, by rwa [hnode]⟩
  · intro adjacency bt a ha
    unfold get_defender_build_actions at ha
    obtain ⟨wn, hwn, rfl⟩ := List.mem_map.mp ha
    exact ⟨wn, hwn, rfl⟩

/-- C4 witness: the kept candidate ⟨(2,3),4⟩ of the 5×5 scenario. -/
theorem c4_candidates_never_sever_witness :
    0 < (WeightedNode.mk (Node.new 2 3) 4).weight ∧
    ∃ p, a_star_with_blocked_node c6Field c6Field.get_start c6Field.get_end
      (some (WeightedNode.mk (Node.new 2 3) 4).node) 60 = some p :=
  (c4_candidates_never_sever 5 10 c6Field c6Cfg 60).1 ⟨Node.new 2 3, 4⟩ (by decide)

/-! ## C9: the feasibility flags are a one-way valve -/

theorem recompute_defender_step_flags (env : PerformEnv) (af : List (Node × Int))
    (ph : List Node) (cfg : DefenderConfiguration) (item : BuildingType × ℚ × ℚ × ℚ) :
    (recompute_defender_step env af ph cfg item).can_build_wall = cfg.can_build_wall ∧
    (recompute_defender_step env af ph cfg item).can_build_tower = cfg.can_build_tower := by
  simp [recompute_defender_step]

theorem foldl_recompute_flags (env : PerformEnv) (af : List (Node × Int))
    (ph : List Node) :
    ∀ (items : List (BuildingType × ℚ × ℚ × ℚ)) (cfg : DefenderConfiguration),
      ((items.foldl (recompute_defender_step env af ph) cfg).can_build_wall =
        cfg.can_build_wall ∧
       (items.foldl (recompute_defender_step env af ph) cfg).can_build_tower =
        cfg.can_build_tower) := by
  intro items
  induction items with
  | nil => intro cfg; exact ⟨rfl, rfl⟩
  | cons item rest ih =>
    intro cfg
    simp only [List.foldl_cons]
    have h1 := recompute_defender_step_flags env af ph cfg item
    have h2 := ih (recompute_defender_step env af ph cfg item)
    exact ⟨h2.1.trans h1.1, h2.2.trans h1.2⟩

theorem perform_recompute_flags (fld : TowerField) (env : PerformEnv)
    (st : PerformState) :
    (perform_recompute fld env st).cfg.can_build_wall = st.cfg.can_build_wall ∧
    (perform_recompute fld env st).cfg.can_build_tower = st.cfg.can_build_tower := by
  unfold perform_recompute
  split
  · split
    · rename_i path heq
      constructor <;>
        simp [foldl_recompute_flags]
    · constructor <;>
        simp [foldl_recompute_flags]
  · exact ⟨rfl, rfl⟩

theorem perform_decide_flags_one_way (fld : TowerField) (env : PerformEnv)
    (st : PerformState) :
    ((perform_decide fld env st).cfg.can_build_wall = true →
      st.cfg.can_build_wall = true) ∧
    ((perform_decide fld env st).cfg.can_build_tower = true →
      st.cfg.can_build_tower = true) := by
  constructor <;>
    · intro h
      unfold perform_decide at h
      dsimp only [] at h
      repeat' split at h
      all_goals simp_all

/-- C9: both feasibility flags start true; the full `perform_an_action` step
(recompute plus decision) can only keep or clear them, never set them back to
true; and the decision step clears the respective flag exactly in the branch
whose candidate list came back empty. -/
theorem c9_feasibility_flags_one_way (fld : TowerField) (env : PerformEnv)
    (st : PerformState) :
    DefenderConfiguration.initial.can_build_wall = true ∧
    DefenderConfiguration.initial.can_build_tower = true ∧
    ((perform_an_action fld env st).cfg.can_build_wall = true →
      st.cfg.can_build_wall = true) ∧
    ((perform_an_action fld env st).cfg.can_build_tower = true →
      st.cfg.can_build_tower = true) ∧
    (∀ st' : PerformState, env.cooldown_just_finished = true →
      max_index [wall_score st'.cfg st'.stats.closest_distance_to_end,
        defender_score st'.cfg st'.stats.closest_distance_to_end] = 0 →
      get_wall_build_actions 5 10 fld st'.cfg env.fuel = [] →
      (perform_decide fld env st').cfg.can_build_wall = false) ∧
    (∀ st' : PerformState, env.cooldown_just_finished = true →
      max_index [wall_score st'.cfg st'.stats.closest_distance_to_end,
        defender_score st'.cfg st'.stats.closest_distance_to_end] = 1 →
      get_wall_build_actions 3 10 fld st'.cfg env.fuel = [] →
      (perform_decide fld env st').cfg.can_build_tower = false) := by
  refine ⟨rfl, rfl, ?_, ?_, ?_, ?_⟩
  · intro h
    have hr := perform_recompute_flags fld env st
    have hd := perform_decide_flags_one_way fld env (perform_recompute fld env st)
    rw [← hr.1]
    exact hd.1 h
  · intro h
    have hr := perform_recompute_flags fld env st
    have hd := perform_decide_flags_one_way fld env (perform_recompute fld env st)
    rw [← hr.2]
    exact hd.2 h
  · intro st' hcd hsel hempty
    unfold perform_decide
    dsimp only []
    rcases hnt : st'.next_tower with _ | t <;> cases hcr : env.cannon_roll <;>
      simp [hcd, hnt, hcr, hsel, hempty]
  · intro st' hcd hsel hempty
    unfold perform_decide
    dsimp only []
    rcases hnt : st'.next_tower with _ | t <;> cases hcr : env.cannon_roll <;>
      simp [hcd, hnt, hcr, hsel, get_defender_build_actions, hempty]

/-- C9 witness: an idle tick preserves true flags; a wall decision with no
candidates clears the wall flag; a defender decision with no candidates
clears the tower flag. -/
theorem c9_feasibility_flags_one_way_witness :
    c5St.cfg.can_build_wall = true ∧
    (perform_decide tinyField c5Env c9WallSt).cfg.can_build_wall = false ∧
    (perform_decide tinyField c5Env c5St).cfg.can_build_tower = false := by
  refine ⟨?_, ?_, ?_⟩
  · exact (c9_feasibility_flags_one_way tinyField c9IdleEnv c5St).2.2.1 rfl
  · refine (c9_feasibility_flags_one_way tinyField c5Env c9WallSt).2.2.2.2.1 c9WallSt rfl
      ?_ ?_
    · have hw : wall_score c9WallSt.cfg c9WallSt.stats.closest_distance_to_end = 0 := by
        simp [wall_score, c9WallSt, c9WallCfg, DefenderConfiguration.initial,
          DefenderConfiguration.get_wall_factor, distance_factor]
      have hd : defender_score c9WallSt.cfg c9WallSt.stats.closest_distance_to_end =
          -2800 := by
        simp [defender_score, c9WallSt, c9WallCfg, DefenderConfiguration.initial,
          DefenderConfiguration.get_wall_factor, distance_factor]
        norm_num
      rw [hw, hd, max_index_pair]
      norm_num
    · rfl
  · refine (c9_feasibility_flags_one_way tinyField c5Env c5St).2.2.2.2.2 c5St rfl ?_ ?_
    · have hw : wall_score c5St.cfg c5St.stats.closest_distance_to_end = 0 := by
        simp [wall_score, c5St, c5Cfg, DefenderConfiguration.initial,
          DefenderConfiguration.get_wall_factor, distance_factor]
      have hd : defender_score c5St.cfg c5St.stats.closest_distance_to_end = 14 / 5 := by
        simp [defender_score, c5St, c5Cfg, DefenderConfiguration.initial,
          DefenderConfiguration.get_wall_factor, distance_factor]
        norm_num
      rw [hw, hd, max_index_pair]
      norm_num [F32_MIN_Q]
    · rfl

/-! ## C10: reaching the end cell -/

theorem check_reached_end_spec (fld : TowerField) (units : List AttackerUnit) :
    (check_reached_end fld units).1 = units.map (fun u =>
      if reached_end_cond fld u then
        { u with transform := fld.get_start_transform, path := none }
      else u) ∧
    (check_reached_end fld units).2 =
      (units.filter (reached_end_cond fld)).map fun u => ⟨u.id, u.attacker.bounty⟩ := by
  induction units with
  | nil => exact ⟨rfl, rfl⟩
  | cons u rest ih =>
    by_cases hc : reached_end_cond fld u <;>
      simp [check_reached_end, hc, ih.1, ih.2, List.filter_cons]

theorem listen_to_reached_end_gold (events : List EntityReachedEnd) :
    ∀ res : AttackerResource,
      (listen_to_reached_end events res).gold =
        res.gold + (events.map EntityReachedEnd.bounty).sum := by
  induction events with
  | nil => intro res; simp [listen_to_reached_end]
  | cons ev rest ih =>
    intro res
    simp only [listen_to_reached_end, List.foldl_cons] at *
    rw [ih]
    simp
    omega

theorem listen_goals_lives (events : List EntityReachedEnd) :
    ∀ res : ResourceStore,
      (listen_goals events res).lives = res.lives - events.length := by
  induction events with
  | nil => intro res; simp [listen_goals]
  | cons ev rest ih =>
    intro res
    simp only [listen_goals, List.foldl_cons] at *
    rw [ih]
    simp
    omega

/-- C10: every attacker within 5 world units of the end cell emits a
reached-end event carrying its bounty, is teleported to the start transform
and loses its `Path`; attacker gold then grows by exactly the sum of the
emitted bounties and defender lives drop by exactly one per event. -/
theorem c10_reached_end_protocol (fld : TowerField) (units : List AttackerUnit)
    (ares : AttackerResource) (dres : ResourceStore) :
    ((check_reached_end fld units).1 = units.map (fun u =>
      if reached_end_cond fld u then
        { u with transform := fld.get_start_transform, path := none }
      else u)) ∧
    ((check_reached_end fld units).2 =
      (units.filter (reached_end_cond fld)).map fun u => ⟨u.id, u.attacker.bounty⟩) ∧
    (∀ u ∈ units, reached_end_cond fld u = true →
      (EntityReachedEnd.mk u.id u.attacker.bounty) ∈ (check_reached_end fld units).2) ∧
    ((listen_to_reached_end (check_reached_end fld units).2 ares).gold =
      ares.gold + (((check_reached_end fld units).2).map EntityReachedEnd.bounty).sum) ∧
    ((listen_goals (check_reached_end fld units).2 dres).lives =
      dres.lives - ((check_reached_end fld units).2).length) := by
  obtain ⟨h1, h2⟩ := check_reached_end_spec fld units
  refine ⟨h1, h2, ?_, listen_to_reached_end_gold _ ares, listen_goals_lives _ dres⟩
  intro u hu hc
  rw [h2]
  exact List.mem_map.mpr ⟨u, List.mem_filter.mpr ⟨hu, hc⟩, rfl⟩

/-- C10 witness: an orc warrior with bounty 10 within 4 world units of the
end of `tinyField`: the event fires, gold grows by 10, lives drop by 1. -/
theorem c10_reached_end_protocol_witness :
    (EntityReachedEnd.mk 7 10) ∈ (check_reached_end tinyField [c10Unit]).2 ∧
    (listen_to_reached_end (check_reached_end tinyField [c10Unit]).2 ⟨200, 0⟩).gold =
      200 + (((check_reached_end tinyField [c10Unit]).2).map EntityReachedEnd.bounty).sum ∧
    (listen_goals (check_reached_end tinyField [c10Unit]).2 ⟨200, 50⟩).lives =
      50 - ((check_reached_end tinyField [c10Unit]).2).length := by
  have h := c10_reached_end_protocol tinyField [c10Unit] ⟨200, 0⟩ ⟨200, 50⟩
  refine ⟨?_, h.2.2.2.1, h.2.2.2.2⟩
  refine h.2.2.1 c10Unit (List.mem_singleton.mpr rfl) ?_
  simp [reached_end_cond, c10Unit, tinyField, TowerField.new, TowerField.get_end,
    dist_sq, Node.new, SLOT_SIZE]
  norm_num

/-! ## C1: structural soundness of every returned path -/

theorem adjacent_of_mem_get_successors (v n : Node) (h : n ∈ get_successors v) :
    Adjacent v n := by
  simp only [get_successors, List.mem_cons, List.not_mem_nil, or_false,
    List.mem_singleton] at h
  rcases h with rfl | rfl | rfl | rfl
  all_goals (show distance _ _ = 1; simp only [distance, Node.new]; omega)

theorem Adjacent.ne {a b : Node} (h : Adjacent a b) : a ≠ b := by
  intro he
  subst he
  simp [Adjacent, distance] at h

theorem chainOf_ne_nil (h : HierarchicalNode) : chainOf h ≠ [] := by
  simp [chainOf]

theorem chainOf_from_node_with_parent (n : Node) (q : HierarchicalNode) :
    chainOf (HierarchicalNode.from_node_with_parent n q) = chainOf q ++ [n] := by
  simp [chainOf, HierarchicalNode.from_node_with_parent]

theorem chainOf_getLast (h : HierarchicalNode) :
    (chainOf h).getLast? = some h.node := by
  simp [chainOf]

theorem GoodH.mono {s e : Node} {cn cn' : List Node} {h : HierarchicalNode}
    (hsub : ∀ x ∈ cn, x ∈ cn') (hG : GoodH s e cn h) : GoodH s e cn' h :=
  ⟨hG.head_start, hG.chain_adj, hG.nodup, hG.no_end,
    fun x hx => hsub x (hG.anc_mem x hx)⟩

theorem goodH_from_node {s e : Node} (cn : List Node) (hse : s ≠ e) :
    GoodH s e cn (HierarchicalNode.from_node s) := by
  refine ⟨?_, ?_, ?_, ?_, ?_⟩
  · rfl
  · simp [chainOf, HierarchicalNode.from_node]
  · simp [chainOf, HierarchicalNode.from_node]
  · simp [chainOf, HierarchicalNode.from_node]
    exact fun hc => hse hc.symm
  · intro x hx
    simp [HierarchicalNode.from_node] at hx

theorem head_append_of_ne_nil {α : Type} (l l' : List α) (h : l ≠ []) :
    (l ++ l').head? = l.head? := by
  cases l with
  | nil => exact absurd rfl h
  | cons a t => rfl

theorem goodH_succ {s e : Node} {cn : List Node} {q : HierarchicalNode} {n : Node}
    (hq : GoodH s e cn q) (hadj : Adjacent q.node n) (hne : n ≠ e) (hncl : n ∉ cn) :
    GoodH s e (cn ++ [q.node]) (HierarchicalNode.from_node_with_parent n q) := by
  have hch := chainOf_from_node_with_parent n q
  have hnotin : n ∉ chainOf q := by
    intro hmem
    rcases List.mem_append.mp hmem with hmem' | hmem'
    · exact hncl (hq.anc_mem n hmem')
    · exact hadj.ne (List.mem_singleton.mp hmem').symm
  refine ⟨?_, ?_, ?_, ?_, ?_⟩
  · rw [hch, head_append_of_ne_nil _ _ (chainOf_ne_nil q)]
    exact hq.head_start
  · rw [hch, List.chain'_append]
    refine ⟨hq.chain_adj, List.chain'_singleton n, ?_⟩
    intro x hx y hy
    rw [chainOf_getLast q, Option.mem_def, Option.some_inj] at hx
    simp only [List.head?_cons, Option.mem_def, Option.some_inj] at hy
    rw [← hx, ← hy]
    exact hadj
  · rw [hch]
    simp only [List.nodup_append, List.nodup_singleton, true_and]
    exact ⟨hq.nodup, fun a ha hab => hnotin ((List.mem_singleton.mp hab) ▸ ha)⟩
  · rw [hch]
    intro hmem
    rcases List.mem_append.mp hmem with hmem' | hmem'
    · exact hq.no_end hmem'
    · exact hne (List.mem_singleton.mp hmem').symm
  · intro x hx
    simp only [HierarchicalNode.from_node_with_parent] at hx
    rcases List.mem_append.mp hx with hx' | hx'
    · exact List.mem_append.mpr (Or.inl (hq.anc_mem x hx'))
    · exact List.mem_append.mpr (Or.inr hx')

theorem mem_replace_if_better_go (new_node : HierarchicalNode) :
    ∀ (xs : List HierarchicalNode) (found : Bool) (x : HierarchicalNode),
      x ∈ replace_if_better_go new_node found xs → x ∈ xs ∨ x = new_node := by
  intro xs
  induction xs with
  | nil =>
    intro found x hx
    cases found <;> simp [replace_if_better_go] at hx
    · exact Or.inr hx
  | cons a t ih =>
    intro found x hx
    simp only [replace_if_better_go] at hx
    split at hx
    · rcases List.mem_cons.mp hx with rfl | hx'
      · exact Or.inr rfl
      · exact Or.inl (List.mem_cons_of_mem a hx')
    · split at hx
      · rcases List.mem_cons.mp hx with rfl | hx'
        · exact Or.inl (List.mem_cons_self _ _)
        · rcases ih true x hx' with h' | h'
          · exact Or.inl (List.mem_cons_of_mem a h')
          · exact Or.inr h'
      · rcases List.mem_cons.mp hx with rfl | hx'
        · exact Or.inl (List.mem_cons_self _ _)
        · rcases ih found x hx' with h' | h'
          · exact Or.inl (List.mem_cons_of_mem a h')
          · exact Or.inr h'

theorem mem_replace_if_better (list : List HierarchicalNode)
    (new_node x : HierarchicalNode) (hx : x ∈ replace_if_better list new_node) :
    x ∈ list ∨ x = new_node :=
  mem_replace_if_better_go new_node list false x hx

theorem contains_node_eq_false (closed : List HierarchicalNode)
    (h : HierarchicalNode) (hc : contains_node closed h = false) :
    h.node ∉ closed.map HierarchicalNode.node := by
  have hall : ∀ x ∈ closed, ¬x.node = h.node := by
    simpa [contains_node] using hc
  intro hmem
  obtain ⟨item, hitem, heq⟩ := List.mem_map.mp hmem
  exact hall item hitem heq

theorem process_successors_sound (fld : TowerField) (s e : Node)
    (blocked : Option Node) (closed : List HierarchicalNode) (q : HierarchicalNode)
    (hq : GoodH s e (closed.map HierarchicalNode.node) q) :
    ∀ (sucs : List Node) (op : List HierarchicalNode),
      (∀ n ∈ sucs, Adjacent q.node n) →
      (∀ x ∈ op, GoodH s e (closed.map HierarchicalNode.node ++ [q.node]) x) →
      (∀ p, process_successors fld e blocked closed q sucs op = Sum.inl p →
        ValidRoute s e p.route) ∧
      (∀ op2, process_successors fld e blocked closed q sucs op = Sum.inr op2 →
        ∀ x ∈ op2, GoodH s e (closed.map HierarchicalNode.node ++ [q.node]) x) := by
  intro sucs
  induction sucs with
  | nil =>
    intro op _ hop
    constructor
    · intro p hp
      simp [process_successors] at hp
    · intro op2 hop2
      simp only [process_successors] at hop2
      cases hop2
      exact hop
  | cons n rest ih =>
    intro op hadj hop
    have hadjn : Adjacent q.node n := hadj n (List.mem_cons_self n rest)
    have hadjrest : ∀ m ∈ rest, Adjacent q.node m :=
      fun m hm => hadj m (List.mem_cons_of_mem n hm)
    by_cases hend : n = e
    · constructor
      · intro p hp
        simp only [process_successors, HierarchicalNode.from_node_with_parent,
          if_pos hend] at hp
        cases hp
        subst hend
        refine ⟨?_, ?_, ?_, ?_⟩
        · show (chainOf q ++ [n]).head? = some s
          rw [head_append_of_ne_nil _ _ (chainOf_ne_nil q)]
          exact hq.head_start
        · show (chainOf q ++ [n]).getLast? = some n
          simp
        · show List.Chain' Adjacent (chainOf q ++ [n])
          rw [List.chain'_append]
          refine ⟨hq.chain_adj, List.chain'_singleton n, ?_⟩
          intro x hx y hy
          rw [chainOf_getLast q, Option.mem_def, Option.some_inj] at hx
          simp only [List.head?_cons, Option.mem_def, Option.some_inj] at hy
          rw [← hx, ← hy]
          exact hadjn
        · show (chainOf q ++ [n]).Nodup
          simp only [List.nodup_append, List.nodup_singleton, true_and]
          have hne2 : n ∉ chainOf q := hq.no_end
          exact ⟨hq.nodup, fun a ha hab => hne2 ((List.mem_singleton.mp hab) ▸ ha)⟩
      · intro op2 hop2
        simp only [process_successors, HierarchicalNode.from_node_with_parent,
          if_pos hend] at hop2
        exact Sum.noConfusion hop2
    · have hne : ¬(HierarchicalNode.from_node_with_parent n q).node = e := hend
      by_cases hb : blocked = some n
      · have : process_successors fld e blocked closed q (n :: rest) op =
            process_successors fld e blocked closed q rest op := by
          simp [process_successors, hne, hb, hend, HierarchicalNode.from_node_with_parent]
        rw [this]
        exact ih op hadjrest hop
      · by_cases ho : is_outside_field n fld
        · have : process_successors fld e blocked closed q (n :: rest) op =
              process_successors fld e blocked closed q rest op := by
            simp [process_successors, hne, hb, ho, hend,
              HierarchicalNode.from_node_with_parent]
          rw [this]
          exact ih op hadjrest hop
        · by_cases hbc : (fld.is_node_blocked n ||
              contains_node closed (HierarchicalNode.from_node_with_parent n q)) = true
          · have : process_successors fld e blocked closed q (n :: rest) op =
                process_successors fld e blocked closed q rest op := by
              simp only [process_successors, HierarchicalNode.from_node_with_parent]
              simp only [HierarchicalNode.from_node_with_parent] at hbc
              simp [hne, hb, ho, hbc, hend]
            rw [this]
            exact ih op hadjrest hop
          · have hnb : contains_node closed
                (HierarchicalNode.from_node_with_parent n q) = false := by
              rcases Bool.or_eq_false_iff.mp (Bool.not_eq_true _ |>.mp hbc) with ⟨_, h2⟩
              exact h2
            have hncl : n ∉ closed.map HierarchicalNode.node :=
              contains_node_eq_false closed _ hnb
            have hgood : GoodH s e (closed.map HierarchicalNode.node ++ [q.node])
                { HierarchicalNode.from_node_with_parent n q with
                    g := q.g + 1, f := q.g + 1 + heuristic n e } := by
              have := goodH_succ hq hadjn hend hncl
              exact ⟨this.head_start, this.chain_adj, this.nodup, this.no_end,
                this.anc_mem⟩
            have : process_successors fld e blocked closed q (n :: rest) op =
                process_successors fld e blocked closed q rest
                  (replace_if_better op
                    { HierarchicalNode.from_node_with_parent n q with
                        g := q.g + 1, f := q.g + 1 + heuristic n e }) := by
              simp only [process_successors, HierarchicalNode.from_node_with_parent]
              simp only [HierarchicalNode.from_node_with_parent] at hbc ho hb hne
              simp [hne, hb, ho, hbc, hend, heuristic]
            rw [this]
            refine ih _ hadjrest ?_
            intro x hx
            rcases mem_replace_if_better _ _ _ hx with hx' | rfl
            · exact hop x hx'
            · exact hgood

theorem a_star_loop_sound (fld : TowerField) (s e : Node) (blocked : Option Node) :
    ∀ (fuel : Nat) (op closed : List HierarchicalNode),
      (∀ x ∈ op, GoodH s e (closed.map HierarchicalNode.node) x) →
      ∀ p, a_star_loop fld e blocked fuel op closed = some p → ValidRoute s e p.route := by
  intro fuel
  induction fuel with
  | zero =>
    intro op closed _ p hp
    simp [a_star_loop] at hp
  | succ m ih =>
    intro op closed hop p hp
    unfold a_star_loop at hp
    by_cases he : op.isEmpty
    · simp [he] at hp
    · rw [if_neg he] at hp
      split at hp
      · exact absurd hp (by simp)
      · rename_i minIdx hmin
        split at hp
        · exact absurd hp (by simp)
        · rename_i q hget
          have hqmem : q ∈ op := by
            have := List.getElem?_eq_some.mp hget
            obtain ⟨hlt, heq⟩ := this
            rw [← heq]
            exact List.getElem_mem hlt
          have hq : GoodH s e (closed.map HierarchicalNode.node) q := hop q hqmem
          have hop1 : ∀ x ∈ op.eraseIdx minIdx,
              GoodH s e (closed.map HierarchicalNode.node ++ [q.node]) x := by
            intro x hx
            exact GoodH.mono (fun y hy => List.mem_append.mpr (Or.inl hy))
              (hop x (List.eraseIdx_subset op minIdx hx))
          have hps := process_successors_sound fld s e blocked closed q hq
            (get_successors q.node) (op.eraseIdx minIdx)
            (fun n hn => adjacent_of_mem_get_successors q.node n hn) hop1
          split at hp
          · rename_i pr hproc
            cases hp
            exact hps.1 _ hproc
          · rename_i op2 hproc
            refine ih op2 (closed ++ [q]) ?_ p hp
            intro x hx
            have := hps.2 op2 hproc x hx
            simpa [List.map_append] using this

/-- C1: every path returned by `a_star_with_blocked_node` (and so by
`a_star`) starts at the given start, ends at the given end, moves between
4-adjacent cells at every step, and never visits a cell twice. -/
theorem c1_path_validity (fld : TowerField) (s e : Node) (b : Option Node)
    (fuel : Nat) (p : Path) (h : a_star_with_blocked_node fld s e b fuel = some p) :
    p.route.head? = some s ∧ p.route.getLast? = some e ∧
    List.Chain' Adjacent p.route ∧ p.route.Nodup := by
  unfold a_star_with_blocked_node at h
  split at h
  · exact absurd h (by simp)
  · split at h
    · exact absurd h (by simp)
    · split at h
      · exact absurd h (by simp)
      · split at h
        · exact absurd h (by simp)
        · split at h
          · exact absurd h (by simp)
          · split at h
            · exact absurd h (by simp)
            · rename_i hbs hos hoe hbls hble hse
              have := a_star_loop_sound fld s e b fuel
                [HierarchicalNode.from_node s] []
                (by
                  intro x hx
                  rw [List.mem_singleton.mp hx]
                  exact goodH_from_node [] hse)
                p h
              exact this

/-- C1 witness: the concrete path found on the 2×1 field. -/
theorem c1_path_validity_witness :
    (Path.mk [Node.new 0 0, Node.new 1 0] 0).route.head? = some (Node.new 0 0) ∧
    (Path.mk [Node.new 0 0, Node.new 1 0] 0).route.getLast? = some (Node.new 1 0) ∧
    List.Chain' Adjacent (Path.mk [Node.new 0 0, Node.new 1 0] 0).route ∧
    (Path.mk [Node.new 0 0, Node.new 1 0] 0).route.Nodup :=
  c1_path_validity tinyField (Node.new 0 0) (Node.new 1 0) none 9
    (Path.mk [Node.new 0 0, Node.new 1 0] 0) (by decide)

/-! ## C2: distance and staircase lemmas -/

theorem distance_eq_zero_iff {a b : Node} : distance a b = 0 ↔ a = b := by
  cases a with
  | mk ax ay =>
    cases b with
    | mk bx by' =>
      simp only [distance, Node.mk.injEq]
      omega

theorem distance_triangle (a b c : Node) :
    distance a c ≤ distance a b + distance b c := by
  simp only [distance]
  omega

theorem distance_self (a : Node) : distance a a = 0 := by
  simp [distance]

theorem adjacent_mem_get_successors {v n : Node} (h : Adjacent v n) :
    n ∈ get_successors v := by
  cases v with
  | mk vx vy =>
    cases n with
    | mk nx ny =>
      simp only [Adjacent, distance] at h
      simp only [get_successors, Node.new, List.mem_cons, List.not_mem_nil, or_false,
        Node.mk.injEq]
      omega

theorem chain_dist_le :
    ∀ (l : List Node) (a b : Node), List.Chain' Adjacent l →
      l.head? = some a → l.getLast? = some b → distance a b + 1 ≤ l.length := by
  intro l
  induction l with
  | nil => intro a b _ ha _; simp at ha
  | cons x t ih =>
    intro a b hc ha hb
    simp only [List.head?_cons, Option.some_inj] at ha
    cases t with
    | nil =>
      simp only [List.getLast?_singleton, Option.some_inj] at hb
      rw [← ha, ← hb, distance_self]
      simp
    | cons y t' =>
      have hadj : Adjacent x y := (List.chain'_cons.mp hc).1
      have hc' : List.Chain' Adjacent (y :: t') := (List.chain'_cons.mp hc).2
      rw [List.getLast?_cons_cons] at hb
      have hrec := ih y b hc' rfl hb
      have htri := distance_triangle a y b
      have hay : distance a y = 1 := by rw [← ha]; exact hadj
      simp only [List.length_cons] at *
      omega

theorem distance_step_x (p e : Node) (hx : p.x ≠ e.x) :
    distance (⟨stepToward p.x e.x, p.y⟩ : Node) e + 1 = distance p e := by
  simp only [distance, stepToward]
  split
  · omega
  · split <;> omega

theorem distance_step_y (p e : Node) (hy : p.y ≠ e.y) :
    distance (⟨p.x, stepToward p.y e.y⟩ : Node) e + 1 = distance p e := by
  simp only [distance, stepToward]
  split
  · omega
  · split <;> omega

theorem dist_ne_y (p e : Node) (hx : p.x = e.x) (h : distance p e ≠ 0) :
    p.y ≠ e.y := by
  intro hy
  apply h
  simp only [distance]
  omega

theorem walkNode_succ (s e : Node) (k : Nat) :
    walkNode s e (k + 1) =
      if (walkNode s e k).x ≠ e.x then
        (⟨stepToward (walkNode s e k).x e.x, (walkNode s e k).y⟩ : Node)
      else ⟨(walkNode s e k).x, stepToward (walkNode s e k).y e.y⟩ := rfl

theorem walk_dist (s e : Node) :
    ∀ i, i ≤ distance s e → distance (walkNode s e i) e = distance s e - i := by
  intro i
  induction i with
  | zero => intro _; simp [walkNode]
  | succ k ih =>
    intro hk
    have ihk := ih (le_of_lt (Nat.lt_of_succ_le hk))
    rw [walkNode_succ]
    by_cases hx : (walkNode s e k).x ≠ e.x
    · rw [if_pos hx]
      have := distance_step_x (walkNode s e k) e hx
      omega
    · rw [if_neg hx]
      push_neg at hx
      have hne : distance (walkNode s e k) e ≠ 0 := by omega
      have hy := dist_ne_y (walkNode s e k) e hx hne
      have := distance_step_y (walkNode s e k) e hy
      omega

theorem walk_end (s e : Node) : walkNode s e (distance s e) = e := by
  have := walk_dist s e (distance s e) le_rfl
  simp only [Nat.sub_self] at this
  exact distance_eq_zero_iff.mp this

theorem adjacent_step_x (p e : Node) (hx : p.x ≠ e.x) :
    Adjacent p (⟨stepToward p.x e.x, p.y⟩ : Node) := by
  simp only [Adjacent, distance, stepToward]
  split
  · omega
  · split <;> omega

theorem adjacent_step_y (p e : Node) (hy : p.y ≠ e.y) :
    Adjacent p (⟨p.x, stepToward p.y e.y⟩ : Node) := by
  simp only [Adjacent, distance, stepToward]
  split
  · omega
  · split <;> omega

theorem walk_adjacent (s e : Node) :
    ∀ i, i < distance s e → Adjacent (walkNode s e i) (walkNode s e (i + 1)) := by
  intro i hi
  have ihk := walk_dist s e i (le_of_lt hi)
  rw [walkNode_succ]
  by_cases hx : (walkNode s e i).x ≠ e.x
  · rw [if_pos hx]
    exact adjacent_step_x (walkNode s e i) e hx
  · rw [if_neg hx]
    push_neg at hx
    have hne : distance (walkNode s e i) e ≠ 0 := by omega
    exact adjacent_step_y (walkNode s e i) e (dist_ne_y (walkNode s e i) e hx hne)

theorem walk_infield {w h : Nat} {s e : Node} (hs : InField w h s)
    (he : InField w h e) : ∀ i, InField w h (walkNode s e i) := by
  intro i
  induction i with
  | zero => exact hs
  | succ k ih =>
    rw [walkNode_succ]
    obtain ⟨e1, e2, e3, e4⟩ := he
    obtain ⟨i1, i2, i3, i4⟩ := ih
    by_cases hx : (walkNode s e k).x ≠ e.x
    · rw [if_pos hx]
      refine ⟨?_, ?_, ?_, ?_⟩ <;> simp only [stepToward] <;> (repeat' split) <;> omega
    · rw [if_neg hx]
      refine ⟨?_, ?_, ?_, ?_⟩ <;> simp only [stepToward] <;> (repeat' split) <;> omega

theorem walk_inj {s e : Node} {i j : Nat} (hi : i ≤ distance s e)
    (hj : j ≤ distance s e) (heq : walkNode s e i = walkNode s e j) : i = j := by
  have h1 := walk_dist s e i hi
  have h2 := walk_dist s e j hj
  rw [heq] at h1
  omega

/-! ## C2: field lemmas -/

theorem is_outside_field_eq_false {fld : TowerField} {n : Node} :
    is_outside_field n fld = false ↔ InField fld.width fld.height n := by
  simp only [is_outside_field, InField, TowerField.get_width, TowerField.get_height,
    Bool.or_eq_false_iff, decide_eq_false_iff_not, not_lt, not_le]
  constructor
  · rintro ⟨⟨⟨h1, h2⟩, h3⟩, h4⟩
    exact ⟨h1, h2, h3, h4⟩
  · rintro ⟨h1, h2, h3, h4⟩
    exact ⟨⟨⟨h1, h2⟩, h3⟩, h4⟩

theorem new_field_not_blocked {w h : Nat} {s e n : Node} (hn : InField w h n) :
    (TowerField.new w h s e).is_node_blocked n = false := by
  obtain ⟨h1, h2, h3, h4⟩ := hn
  have hx : ¬(n.x < 0 ∨ n.y < 0) := by omega
  simp only [TowerField.is_node_blocked, TowerField.new, if_neg hx,
    TowerField.is_blocked]
  have hxw : n.x.toNat < w := by omega
  have hyh : n.y.toNat < h := by omega
  have hidx : n.y.toNat * w + n.x.toNat < w * h := by
    calc n.y.toNat * w + n.x.toNat < n.y.toNat * w + w := by omega
    _ = (n.y.toNat + 1) * w := by ring
    _ ≤ h * w := Nat.mul_le_mul_right w hyh
    _ = w * h := Nat.mul_comm h w
  rw [List.getElem?_replicate]
  simp [hidx]

/-! ## C2: pigeonhole -/

theorem nodup_infield_length_le {w h : Nat} (l : List Node) (hnd : l.Nodup)
    (hf : ∀ n ∈ l, InField w h n) : l.length ≤ w * h := by
  by_cases hw : w = 0
  · cases l with
    | nil => simp
    | cons a t =>
      have := hf a (List.mem_cons_self a t)
      obtain ⟨h1, h2, _, _⟩ := this
      subst hw
      simp at h2
      omega
  · have hwpos : 0 < w := Nat.pos_of_ne_zero hw
    set code : Node → Nat := fun n => n.x.toNat + n.y.toNat * w with hcode
    have hinj : ∀ a ∈ l, ∀ b ∈ l, code a = code b → a = b := by
      intro a ha b hb heq
      obtain ⟨a1, a2, a3, a4⟩ := hf a ha
      obtain ⟨b1, b2, b3, b4⟩ := hf b hb
      have hax : a.x.toNat < w := by omega
      have hbx : b.x.toNat < w := by omega
      simp only [hcode] at heq
      have hmod := congrArg (· % w) heq
      simp only [Nat.add_mul_mod_self_right] at hmod
      rw [Nat.mod_eq_of_lt hax, Nat.mod_eq_of_lt hbx] at hmod
      have hy : a.y.toNat * w = b.y.toNat * w := by omega
      have hy2 : a.y.toNat = b.y.toNat := Nat.eq_of_mul_eq_mul_right hwpos hy
      cases a with
      | mk ax ay =>
        cases b with
        | mk bx by' =>
          simp only [Node.mk.injEq]
          simp only [] at hmod hy2 a1 a2 a3 a4 b1 b2 b3 b4
          omega
    have hmapnd : (l.map code).Nodup := List.Nodup.map_on hinj hnd
    have hlt : ∀ c ∈ l.map code, c < w * h := by
      intro c hc
      obtain ⟨n, hn, rfl⟩ := List.mem_map.mp hc
      obtain ⟨h1, h2, h3, h4⟩ := hf n hn
      have hax : n.x.toNat < w := by omega
      have hay : n.y.toNat < h := by omega
      calc n.x.toNat + n.y.toNat * w < w + n.y.toNat * w := by omega
      _ = (n.y.toNat + 1) * w := by ring
      _ ≤ h * w := Nat.mul_le_mul_right w hay
      _ = w * h := Nat.mul_comm h w
    have hsub : (l.map code).toFinset ⊆ Finset.range (w * h) := by
      intro c hc
      rw [List.mem_toFinset] at hc
      exact Finset.mem_range.mpr (hlt c hc)
    have hcard := Finset.card_le_card hsub
    rw [List.toFinset_card_of_nodup hmapnd, Finset.card_range,
      List.length_map] at hcard
    exact hcard

/-! ## C2: the minimum-f scan -/

theorem find_min_index_go_stay (xs : List HierarchicalNode) (i minIdx minF : Nat)
    (h : ∀ x ∈ xs, ¬(x.f < minF)) : find_min_index_go xs i minIdx minF = minIdx := by
  induction xs generalizing i minIdx minF with
  | nil => rfl
  | cons x t ih =>
    have hx : ¬(x.f < minF) := h x (List.mem_cons_self x t)
    simp only [find_min_index_go, if_neg hx]
    exact ih (i + 1) minIdx minF fun y hy => h y (List.mem_cons_of_mem x hy)

theorem find_min_index_go_found (xs : List HierarchicalNode) :
    ∀ (i minIdx minF : Nat), (∃ x ∈ xs, x.f < minF) →
      ∃ k, ∃ hk : k < xs.length, find_min_index_go xs i minIdx minF = i + k ∧
        (∀ x ∈ xs, (xs.get ⟨k, hk⟩).f ≤ x.f) ∧ (xs.get ⟨k, hk⟩).f < minF := by
  induction xs with
  | nil => intro i minIdx minF h; simp at h
  | cons x t ih =>
    intro i minIdx minF h
    by_cases hx : x.f < minF
    · by_cases ht : ∃ y ∈ t, y.f < x.f
      · obtain ⟨k', hk', heq, hmin, hlt⟩ := ih (i + 1) i x.f ht
        refine ⟨k' + 1, by simpa using Nat.succ_lt_succ hk', ?_, ?_, ?_⟩
        · simp only [find_min_index_go, if_pos hx]
          rw [heq]
          omega
        · intro y hy
          rcases List.mem_cons.mp hy with rfl | hy'
          · exact le_of_lt hlt
          · exact hmin y hy'
        · exact lt_trans hlt hx
      · push_neg at ht
        refine ⟨0, by simp, ?_, ?_, by simpa using hx⟩
        · simp only [find_min_index_go, if_pos hx]
          rw [find_min_index_go_stay t (i + 1) i x.f
            (fun y hy => not_lt.mpr (ht y hy))]
          omega
        · intro y hy
          rcases List.mem_cons.mp hy with rfl | hy'
          · simp
          · simpa using ht y hy'
    · have ht : ∃ y ∈ t, y.f < minF := by
        rcases h with ⟨y, hy, hylt⟩
        rcases List.mem_cons.mp hy with rfl | hy'
        · exact absurd hylt hx
        · exact ⟨y, hy', hylt⟩
      obtain ⟨k', hk', heq, hmin, hlt⟩ := ih (i + 1) minIdx minF ht
      refine ⟨k' + 1, by simpa using Nat.succ_lt_succ hk', ?_, ?_, by simpa using hlt⟩
      · simp only [find_min_index_go, if_neg hx]
        rw [heq]
        omega
      · intro y hy
        rcases List.mem_cons.mp hy with rfl | hy'
        · exact le_trans (le_of_lt hlt) (not_lt.mp hx)
        · exact hmin y hy'

theorem find_min_index_spec (op : List HierarchicalNode) (hne : op ≠ [])
    (hbound : ∀ x ∈ op, x.f < F32_MAX_NAT) :
    ∃ k, ∃ hk : k < op.length, find_min_index op = some k ∧
      ∀ x ∈ op, (op.get ⟨k, hk⟩).f ≤ x.f := by
  have hex : ∃ x ∈ op, x.f < F32_MAX_NAT := by
    cases op with
    | nil => exact absurd rfl hne
    | cons a t => exact ⟨a, List.mem_cons_self a t, hbound a (List.mem_cons_self a t)⟩
  obtain ⟨k, hk, heq, hmin, _⟩ := find_min_index_go_found op 0 (USIZE - 1)
    F32_MAX_NAT hex
  refine ⟨k, hk, ?_, hmin⟩
  unfold find_min_index
  rw [if_neg (by simpa [List.isEmpty_iff] using hne)]
  rw [heq]
  simp

/-! ## C2: more `replace_if_better` and `eraseIdx` lemmas -/

theorem set_get_self {α : Type} :
    ∀ (l : List α) (i : Nat) (h : i < l.length), l.set i (l.get ⟨i, h⟩) = l := by
  intro l
  induction l with
  | nil => intro i h; simp at h
  | cons a t ih =>
    intro i h
    cases i with
    | zero => rfl
    | succ j =>
      have hj : j < t.length := by simpa using h
      simp only [List.set_cons_succ, List.get]
      rw [ih j hj]

theorem mem_set_of_lt {α : Type} :
    ∀ (l : List α) (i : Nat) (a : α), i < l.length → a ∈ l.set i a := by
  intro l
  induction l with
  | nil => intro i a h; simp at h
  | cons x t ih =>
    intro i a h
    cases i with
    | zero => exact List.mem_cons_self a t
    | succ j =>
      have hj : j < t.length := by simpa using h
      exact List.mem_cons_of_mem x (ih j a hj)

theorem rib_mem_of_ne (new_node : HierarchicalNode) :
    ∀ (xs : List HierarchicalNode) (found : Bool) (x : HierarchicalNode),
      x ∈ xs → x.node ≠ new_node.node →
      x ∈ replace_if_better_go new_node found xs := by
  intro xs
  induction xs with
  | nil => intro found x hx _; simp at hx
  | cons a t ih =>
    intro found x hx hne
    simp only [replace_if_better_go]
    rcases List.mem_cons.mp hx with rfl | hx'
    · split
      · rename_i hcond
        exact absurd hcond.1 hne
      all_goals try split
      all_goals exact List.mem_cons_self _ _
    · split
      · exact List.mem_cons_of_mem _ hx'
      all_goals try split
      all_goals first
        | exact List.mem_cons_of_mem _ (ih true x hx' hne)
        | exact List.mem_cons_of_mem _ (ih found x hx' hne)

theorem FOK_g_le {s e : Node} {x y : HierarchicalNode} (hx : FOK s e x)
    (hy : FOK s e y) (hnode : x.node = y.node) (hf : x.f ≤ y.f) : x.g ≤ y.g := by
  rcases hx with hx | ⟨_, hxg, hxf⟩
  · rcases hy with hy | ⟨_, hyg, hyf⟩
    · rw [hnode] at hx
      omega
    · rw [hyf] at hf
      omega
  · omega

theorem rib_insert_bound {s e : Node} (list : List HierarchicalNode)
    (new_node : HierarchicalNode) (hnd : (list.map HierarchicalNode.node).Nodup)
    (hfok : ∀ x ∈ list, FOK s e x) (hfoknew : FOK s e new_node) :
    ∃ x ∈ replace_if_better list new_node,
      x.node = new_node.node ∧ x.g ≤ new_node.g := by
  by_cases hex : ∀ y ∈ list, y.node ≠ new_node.node
  · rw [replace_if_better_of_no_match list new_node hex]
    exact ⟨new_node, List.mem_append.mpr (Or.inr (List.mem_singleton.mpr rfl)),
      rfl, le_rfl⟩
  · push_neg at hex
    obtain ⟨y, hy, hyeq⟩ := hex
    obtain ⟨⟨i, hi⟩, hget⟩ := List.mem_iff_get.mp hy
    have hmatch : (list.get ⟨i, hi⟩).node = new_node.node := by rw [hget]; exact hyeq
    rcases replace_if_better_of_match list new_node hnd i hi hmatch with
      ⟨hlt, heq⟩ | ⟨hle, heq⟩
    · rw [heq]
      exact ⟨new_node, mem_set_of_lt list i new_node hi, rfl, le_rfl⟩
    · rw [heq]
      refine ⟨list.get ⟨i, hi⟩, List.get_mem list i hi, hmatch, ?_⟩
      exact FOK_g_le (hfok _ (List.get_mem list i hi)) hfoknew hmatch hle

theorem rib_preserve_bound {s e : Node} (list : List HierarchicalNode)
    (new_node hw : HierarchicalNode) (hnd : (list.map HierarchicalNode.node).Nodup)
    (hfok : ∀ x ∈ list, FOK s e x) (hfoknew : FOK s e new_node) (hhw : hw ∈ list) :
    ∃ x ∈ replace_if_better list new_node, x.node = hw.node ∧ x.g ≤ hw.g := by
  by_cases hn : hw.node = new_node.node
  · obtain ⟨⟨i, hi⟩, hget⟩ := List.mem_iff_get.mp hhw
    have hmatch : (list.get ⟨i, hi⟩).node = new_node.node := by rw [hget]; exact hn
    rcases replace_if_better_of_match list new_node hnd i hi hmatch with
      ⟨hlt, heq⟩ | ⟨hle, heq⟩
    · rw [heq]
      refine ⟨new_node, mem_set_of_lt list i new_node hi, hn.symm, ?_⟩
      have hwf : hw.f = (list.get ⟨i, hi⟩).f := by rw [hget]
      exact FOK_g_le hfoknew (hfok hw hhw) hn.symm (by omega)
    · rw [heq]
      exact ⟨hw, hhw, rfl, le_rfl⟩
  · exact ⟨hw, rib_mem_of_ne new_node list false hw hhw hn, rfl, le_rfl⟩

theorem rib_nodes_nodup (list : List HierarchicalNode)
    (new_node : HierarchicalNode) (hnd : (list.map HierarchicalNode.node).Nodup) :
    ((replace_if_better list new_node).map HierarchicalNode.node).Nodup := by
  by_cases hex : ∀ y ∈ list, y.node ≠ new_node.node
  · rw [replace_if_better_of_no_match list new_node hex]
    rw [List.map_append]
    simp only [List.map_singleton]
    rw [List.nodup_append]
    refine ⟨hnd, List.nodup_singleton _, ?_⟩
    intro a ha hb
    obtain ⟨y, hy, rfl⟩ := List.mem_map.mp ha
    exact hex y hy (List.mem_singleton.mp hb)
  · push_neg at hex
    obtain ⟨y, hy, hyeq⟩ := hex
    obtain ⟨⟨i, hi⟩, hget⟩ := List.mem_iff_get.mp hy
    have hmatch : (list.get ⟨i, hi⟩).node = new_node.node := by rw [hget]; exact hyeq
    rcases replace_if_better_of_match list new_node hnd i hi hmatch with
      ⟨_, heq⟩ | ⟨_, heq⟩
    · rw [heq, List.map_set]
      have : new_node.node = (list.map HierarchicalNode.node).get
          ⟨i, by simpa using hi⟩ := by
        rw [List.get_map]
        exact hmatch.symm
      rw [this, set_get_self]
      exact hnd
    · rw [heq]
      exact hnd

theorem mem_eraseIdx_of_ne {α : Type} :
    ∀ (l : List α) (i : Nat) (hi : i < l.length) (x : α),
      x ∈ l → x ≠ l.get ⟨i, hi⟩ → x ∈ l.eraseIdx i := by
  intro l
  induction l with
  | nil => intro i hi; simp at hi
  | cons a t ih =>
    intro i hi x hx hne
    cases i with
    | zero =>
      rcases List.mem_cons.mp hx with rfl | hx'
      · exact absurd rfl hne
      · simpa [List.eraseIdx] using hx'
    | succ j =>
      have hj : j < t.length := by simpa using hi
      rcases List.mem_cons.mp hx with rfl | hx'
      · exact List.mem_cons_self _ _
      · exact List.mem_cons_of_mem a (ih j hj x hx' hne)

theorem eraseIdx_map_nodup {α β : Type} (l : List α) (f : α → β) (i : Nat)
    (hnd : (l.map f).Nodup) : ((l.eraseIdx i).map f).Nodup :=
  List.Nodup.sublist (List.Sublist.map f (List.eraseIdx_sublist l i)) hnd

/-! ## C2: the open-list `f` bound -/

theorem open_f_bound {w h : Nat} {s e : Node} {op closed : List HierarchicalNode}
    (inv : AStarInv w h s e op closed) (he : InField w h e) (hwh : w * h < 2 ^ 63) :
    ∀ x ∈ op, x.f < F32_MAX_NAT := by
  intro x hx
  have hmem : x ∈ op ++ closed := List.mem_append.mpr (Or.inl hx)
  have hg : x.g = x.ancestors.length := inv.entry_g x hmem
  have hgood := inv.good x hmem
  have hchnd : (x.ancestors ++ [x.node]).Nodup := hgood.nodup
  have hancnd : x.ancestors.Nodup := List.Nodup.of_append_left hchnd
  have hsubp : List.Subperm x.ancestors (closed.map HierarchicalNode.node) :=
    hancnd.subperm hgood.anc_mem
  have hcl : (closed.map HierarchicalNode.node).length ≤ w * h := by
    refine nodup_infield_length_le _ inv.closed_nodes ?_
    intro n hn
    obtain ⟨c, hc, rfl⟩ := List.mem_map.mp hn
    exact inv.entry_field c (List.mem_append.mpr (Or.inr hc))
  have hlen : x.ancestors.length ≤ w * h :=
    le_trans hsubp.length_le hcl
  have hw1 : 1 ≤ w := by
    obtain ⟨h1, h2, _, _⟩ := he
    omega
  have hh1 : 1 ≤ h := by
    obtain ⟨_, _, h3, h4⟩ := he
    omega
  have hwle : w ≤ w * h := Nat.le_mul_of_pos_right w (by omega)
  have hhle : h ≤ w * h := Nat.le_mul_of_pos_left h (by omega)
  rcases inv.entry_f x hx with hnormal | ⟨_, _, hf0⟩
  · have hxf := inv.entry_field x hmem
    have hdist : distance x.node e ≤ w + h := by
      obtain ⟨a1, a2, a3, a4⟩ := hxf
      obtain ⟨b1, b2, b3, b4⟩ := he
      simp only [distance]
      omega
    rw [hnormal, hg]
    unfold F32_MAX_NAT
    omega
  · rw [hf0]
    unfold F32_MAX_NAT
    omega

/-! ## C2: successor-processing lemmas -/

theorem contains_node_eq_false_of_not_mem (closed : List HierarchicalNode)
    (x : HierarchicalNode) (h : x.node ∉ closed.map HierarchicalNode.node) :
    contains_node closed x = false := by
  simp only [contains_node, List.any_eq_false, decide_eq_true_eq]
  intro item hitem hcon
  exact h (List.mem_map.mpr ⟨item, hitem, hcon⟩)

theorem process_inl_shape (fld : TowerField) (e : Node) (blocked : Option Node)
    (closed : List HierarchicalNode) (q : HierarchicalNode) :
    ∀ (sucs : List Node) (op : List HierarchicalNode) (p : Path),
      process_successors fld e blocked closed q sucs op = Sum.inl p →
      p.route = (q.ancestors ++ [q.node]) ++ [e] := by
  intro sucs
  induction sucs with
  | nil => intro op p hp; simp [process_successors] at hp
  | cons n rest ih =>
    intro op p hp
    simp only [process_successors] at hp
    split at hp
    · rename_i hcond
      cases hp
      have hne : n = e := hcond
      simp [get_path, HierarchicalNode.from_node_with_parent, hne]
    · split at hp
      · exact ih _ p hp
      · split at hp
        · exact ih _ p hp
        · split at hp
          · exact ih _ p hp
          · exact ih _ p hp

theorem process_inl_of_end (fld : TowerField) (e : Node) (blocked : Option Node)
    (closed : List HierarchicalNode) (q : HierarchicalNode) :
    ∀ (sucs : List Node) (op : List HierarchicalNode), e ∈ sucs →
      ∃ p, process_successors fld e blocked closed q sucs op = Sum.inl p := by
  intro sucs
  induction sucs with
  | nil => intro op hmem; simp at hmem
  | cons n rest ih =>
    intro op hmem
    by_cases hend : (HierarchicalNode.from_node_with_parent n q).node = e
    · exact ⟨get_path (HierarchicalNode.from_node_with_parent n q),
        by simp [process_successors, hend]⟩
    · have hne : n ≠ e := hend
      have hmem' : e ∈ rest := by
        rcases List.mem_cons.mp hmem with heq | hmem'
        · exact absurd heq.symm hne
        · exact hmem'
      simp only [process_successors]
      rw [if_neg hend]
      split
      · exact ih _ hmem'
      · split
        · exact ih _ hmem'
        · split
          · exact ih _ hmem'
          · exact ih _ hmem'

theorem process_inv (w h : Nat) (s e : Node) (fld : TowerField)
    (blocked : Option Node) (closed : List HierarchicalNode) (q : HierarchicalNode)
    (hfldw : fld.width = w) (hfldh : fld.height = h)
    (hqg : q.g = q.ancestors.length) :
    ∀ (sucs : List Node) (op op2 : List HierarchicalNode),
      (∀ n ∈ sucs, Adjacent q.node n) →
      (∀ x ∈ op, x.g = x.ancestors.length) →
      (∀ x ∈ op, FOK s e x) →
      (∀ x ∈ op, InField w h x.node) →
      (op.map HierarchicalNode.node).Nodup →
      (∀ x ∈ op, x.node ∉ closed.map HierarchicalNode.node ++ [q.node]) →
      process_successors fld e blocked closed q sucs op = Sum.inr op2 →
      ((∀ x ∈ op2, x.g = x.ancestors.length) ∧
       (∀ x ∈ op2, FOK s e x) ∧
       (∀ x ∈ op2, InField w h x.node) ∧
       (op2.map HierarchicalNode.node).Nodup ∧
       (∀ x ∈ op2, x.node ∉ closed.map HierarchicalNode.node ++ [q.node])) := by
  intro sucs
  induction sucs with
  | nil =>
    intro op op2 _ h1 h2 h3 h4 h5 hp
    simp only [process_successors] at hp
    cases hp
    exact ⟨h1, h2, h3, h4, h5⟩
  | cons n rest ih =>
    intro op op2 hadj h1 h2 h3 h4 h5 hp
    have hadjn : Adjacent q.node n := hadj n (List.mem_cons_self n rest)
    have hadjrest : ∀ m ∈ rest, Adjacent q.node m :=
      fun m hm => hadj m (List.mem_cons_of_mem n hm)
    simp only [process_successors] at hp
    split at hp
    · exact absurd hp (by simp)
    · split at hp
      · exact ih op op2 hadjrest h1 h2 h3 h4 h5 hp
      · split at hp
        · exact ih op op2 hadjrest h1 h2 h3 h4 h5 hp
        · split at hp
          · exact ih op op2 hadjrest h1 h2 h3 h4 h5 hp
          · rename_i hendc hbc hoc hblc
            set snew : HierarchicalNode :=
              { HierarchicalNode.from_node_with_parent n q with
                  g := q.g + 1,
                  f := q.g + 1 + heuristic
                    (HierarchicalNode.from_node_with_parent n q).node e } with hsnew
            have hg : snew.g = snew.ancestors.length := by
              simp [hsnew, HierarchicalNode.from_node_with_parent, hqg]
            have hf : FOK s e snew := by
              left
              simp [hsnew, HierarchicalNode.from_node_with_parent, heuristic]
            have hif : InField w h snew.node := by
              have : is_outside_field n fld = false := by
                simpa using hoc
              have := is_outside_field_eq_false.mp this
              rw [hfldw, hfldh] at this
              exact this
            have hnpn : snew.node ∉ closed.map HierarchicalNode.node ++ [q.node] := by
              intro hmem
              rcases List.mem_append.mp hmem with hmem' | hmem'
              · have hcn : contains_node closed
                    (HierarchicalNode.from_node_with_parent n q) = true := by
                  simp only [contains_node, List.any_eq_true, decide_eq_true_eq]
                  obtain ⟨item, hitem, hcon⟩ := List.mem_map.mp hmem'
                  exact ⟨item, hitem, hcon⟩
                simp [hcn] at hblc
              · exact hadjn.ne (List.mem_singleton.mp hmem').symm
            refine ih _ op2 hadjrest ?_ ?_ ?_ ?_ ?_ hp
            · intro x hx
              rcases mem_replace_if_better _ _ _ hx with hx' | rfl
              · exact h1 x hx'
              · exact hg
            · intro x hx
              rcases mem_replace_if_better _ _ _ hx with hx' | rfl
              · exact h2 x hx'
              · exact hf
            · intro x hx
              rcases mem_replace_if_better _ _ _ hx with hx' | rfl
              · exact h3 x hx'
              · exact hif
            · exact rib_nodes_nodup op snew h4
            · intro x hx
              rcases mem_replace_if_better _ _ _ hx with hx' | rfl
              · exact h5 x hx'
              · exact hnpn

theorem process_preserve_witness (s e : Node) (fld : TowerField)
    (blocked : Option Node) (closed : List HierarchicalNode) (q : HierarchicalNode) :
    ∀ (sucs : List Node) (op op2 : List HierarchicalNode) (v : Node) (b : Nat),
      (∀ x ∈ op, FOK s e x) →
      (op.map HierarchicalNode.node).Nodup →
      (∃ x ∈ op, x.node = v ∧ x.g ≤ b) →
      process_successors fld e blocked closed q sucs op = Sum.inr op2 →
      ∃ x ∈ op2, x.node = v ∧ x.g ≤ b := by
  intro sucs
  induction sucs with
  | nil =>
    intro op op2 v b _ _ hex hp
    simp only [process_successors] at hp
    cases hp
    exact hex
  | cons n rest ih =>
    intro op op2 v b hfok hnd hex hp
    simp only [process_successors] at hp
    split at hp
    · exact absurd hp (by simp)
    · split at hp
      · exact ih op op2 v b hfok hnd hex hp
      · split at hp
        · exact ih op op2 v b hfok hnd hex hp
        · split at hp
          · exact ih op op2 v b hfok hnd hex hp
          · set snew : HierarchicalNode :=
              { HierarchicalNode.from_node_with_parent n q with
                  g := q.g + 1,
                  f := q.g + 1 + heuristic
                    (HierarchicalNode.from_node_with_parent n q).node e } with hsnew
            have hfnew : FOK s e snew := by
              left
              simp [hsnew, HierarchicalNode.from_node_with_parent, heuristic]
            obtain ⟨x, hxmem, hxv, hxg⟩ := hex
            obtain ⟨x', hx'mem, hx'node, hx'g⟩ :=
              rib_preserve_bound op snew x hnd hfok hfnew hxmem
            refine ih _ op2 v b ?_ (rib_nodes_nodup op snew hnd) ?_ hp
            · intro y hy
              rcases mem_replace_if_better _ _ _ hy with hy' | rfl
              · exact hfok y hy'
              · exact hfnew
            · exact ⟨x', hx'mem, hx'node.trans hxv, le_trans hx'g hxg⟩

theorem process_insert_witness (s e : Node) (fld : TowerField)
    (closed : List HierarchicalNode) (q : HierarchicalNode) :
    ∀ (sucs : List Node) (op op2 : List HierarchicalNode) (v : Node),
      (∀ x ∈ op, FOK s e x) →
      (op.map HierarchicalNode.node).Nodup →
      v ∈ sucs → v ≠ e →
      is_outside_field v fld = false →
      fld.is_node_blocked v = false →
      v ∉ closed.map HierarchicalNode.node →
      process_successors fld e none closed q sucs op = Sum.inr op2 →
      ∃ x ∈ op2, x.node = v ∧ x.g ≤ q.g + 1 := by
  intro sucs
  induction sucs with
  | nil => intro op op2 v _ _ hmem; simp at hmem
  | cons n rest ih =>
    intro op op2 v hfok hnd hmem hve hvo hvb hvc hp
    by_cases hnv : n = v
    · subst hnv
      have hend : ¬(HierarchicalNode.from_node_with_parent n q).node = e := hve
      have hcn : contains_node closed
          (HierarchicalNode.from_node_with_parent n q) = false :=
        contains_node_eq_false_of_not_mem closed _ hvc
      simp only [process_successors] at hp
      rw [if_neg hend] at hp
      rw [if_neg (by simp : ¬(none : Option Node) = some
        (HierarchicalNode.from_node_with_parent n q).node)] at hp
      rw [if_neg (by simp [HierarchicalNode.from_node_with_parent, hvo] :
        ¬is_outside_field
        (HierarchicalNode.from_node_with_parent n q).node fld = true)] at hp
      rw [if_neg (by
        simp only [HierarchicalNode.from_node_with_parent] at hcn
        simp [HierarchicalNode.from_node_with_parent, hvb, hcn] :
        ¬(fld.is_node_blocked
          (HierarchicalNode.from_node_with_parent n q).node ||
        contains_node closed (HierarchicalNode.from_node_with_parent n q)) = true)]
        at hp
      set snew : HierarchicalNode :=
        { HierarchicalNode.from_node_with_parent n q with
            g := q.g + 1,
            f := q.g + 1 + heuristic
              (HierarchicalNode.from_node_with_parent n q).node e } with hsnew
      have hfnew : FOK s e snew := by
        left
        simp [hsnew, HierarchicalNode.from_node_with_parent, heuristic]
      obtain ⟨x, hxmem, hxnode, hxg⟩ := rib_insert_bound op snew hnd hfok hfnew
      refine process_preserve_witness s e fld none closed q rest _ op2 n (q.g + 1)
        ?_ (rib_nodes_nodup op snew hnd) ⟨x, hxmem, hxnode, hxg⟩ hp
      intro y hy
      rcases mem_replace_if_better _ _ _ hy with hy' | rfl
      · exact hfok y hy'
      · exact hfnew
    · have hmem' : v ∈ rest := by
        rcases List.mem_cons.mp hmem with heq | hmem'
        · exact absurd heq.symm hnv
        · exact hmem'
      simp only [process_successors] at hp
      split at hp
      · exact absurd hp (by simp)
      · split at hp
        · exact ih op op2 v hfok hnd hmem' hve hvo hvb hvc hp
        · split at hp
          · exact ih op op2 v hfok hnd hmem' hve hvo hvb hvc hp
          · split at hp
            · exact ih op op2 v hfok hnd hmem' hve hvo hvb hvc hp
            · set snew : HierarchicalNode :=
                { HierarchicalNode.from_node_with_parent n q with
                    g := q.g + 1,
                    f := q.g + 1 + heuristic
                      (HierarchicalNode.from_node_with_parent n q).node e } with hsnew
              have hfnew : FOK s e snew := by
                left
                simp [hsnew, HierarchicalNode.from_node_with_parent, heuristic]
              refine ih _ op2 v ?_ (rib_nodes_nodup op snew hnd) hmem' hve hvo hvb
                hvc hp
              intro y hy
              rcases mem_replace_if_better _ _ _ hy with hy' | rfl
              · exact hfok y hy'
              · exact hfnew

theorem nodup_get_not_mem_eraseIdx {α : Type} :
    ∀ (l : List α), l.Nodup → ∀ (i : Nat) (hi : i < l.length),
      l.get ⟨i, hi⟩ ∉ l.eraseIdx i := by
  intro l
  induction l with
  | nil => intro _ i hi; simp at hi
  | cons a t ih =>
    intro hnd i hi
    cases i with
    | zero =>
      show a ∉ t
      exact (List.nodup_cons.mp hnd).1
    | succ j =>
      have hj : j < t.length := by simpa using hi
      show t.get ⟨j, hj⟩ ∉ a :: t.eraseIdx j
      intro hmem
      rcases List.mem_cons.mp hmem with heq | hmem'
      · exact (List.nodup_cons.mp hnd).1 (heq ▸ List.get_mem t j hj)
      · exact ih (List.nodup_cons.mp hnd).2 j hj hmem'

theorem a_star_loop_complete {w h : Nat} {s e : Node} (hs : InField w h s)
    (he : InField w h e) (hse : s ≠ e) (hwh : w * h < 2 ^ 63) :
    ∀ (fuel : Nat) (op closed : List HierarchicalNode),
      AStarInv w h s e op closed →
      w * h + 1 ≤ closed.length + fuel →
      ∃ p, a_star_loop (TowerField.new w h s e) e none fuel op closed = some p ∧
        p.route.length = distance s e + 1 := by
  intro fuel
  induction fuel with
  | zero =>
    intro op closed inv hfuel
    exfalso
    have hcl : (closed.map HierarchicalNode.node).length ≤ w * h := by
      refine nodup_infield_length_le _ inv.closed_nodes ?_
      intro n hn
      obtain ⟨c, hc, rfl⟩ := List.mem_map.mp hn
      exact inv.entry_field c (List.mem_append.mpr (Or.inr hc))
    rw [List.length_map] at hcl
    omega
  | succ fuel ih =>
    intro op closed inv hfuel
    obtain ⟨hw, hwmem, i, hiC, hwalk, hwg, hbeyond⟩ := inv.witness
    have hne : op ≠ [] := List.ne_nil_of_mem hwmem
    have hcond : ¬op.isEmpty = true := by
      cases op with
      | nil => exact absurd rfl hne
      | cons a t => simp
    have hbound : ∀ x ∈ op, x.f < F32_MAX_NAT := open_f_bound inv he hwh
    obtain ⟨k, hk, hfm, hmin⟩ := find_min_index_spec op hne hbound
    set fld : TowerField := TowerField.new w h s e with hfld
    set q : HierarchicalNode := op.get ⟨k, hk⟩ with hqdef
    have hget : op[k]? = some q := List.getElem?_eq_getElem hk
    have hqmem : q ∈ op := List.get_mem op k hk
    have hqmem2 : q ∈ op ++ closed := List.mem_append.mpr (Or.inl hqmem)
    have hgoodq : GoodH s e (closed.map HierarchicalNode.node) q := inv.good q hqmem2
    have hqg : q.g = q.ancestors.length := inv.entry_g q hqmem2
    have hqf : FOK s e q := inv.entry_f q hqmem
    have hhwf : FOK s e hw := inv.entry_f hw hwmem
    have hqfle : q.f ≤ hw.f := hmin hw hwmem
    have hhwfC : hw.f ≤ distance s e := by
      rcases hhwf with hn | ⟨_, _, hf0⟩
      · have hd : distance hw.node e = distance s e - i := by
          rw [← hwalk]
          exact walk_dist s e i (le_of_lt hiC)
        omega
      · omega
    have herase_sub : ∀ x ∈ op.eraseIdx k, x ∈ op :=
      fun x hx => List.eraseIdx_subset op k hx
    have herase_fok : ∀ x ∈ op.eraseIdx k, FOK s e x :=
      fun x hx => inv.entry_f x (herase_sub x hx)
    have herase_g : ∀ x ∈ op.eraseIdx k, x.g = x.ancestors.length :=
      fun x hx => inv.entry_g x (List.mem_append.mpr (Or.inl (herase_sub x hx)))
    have herase_field : ∀ x ∈ op.eraseIdx k, InField w h x.node :=
      fun x hx => inv.entry_field x (List.mem_append.mpr (Or.inl (herase_sub x hx)))
    have herase_nd : ((op.eraseIdx k).map HierarchicalNode.node).Nodup :=
      eraseIdx_map_nodup op HierarchicalNode.node k inv.open_nodes
    have hop_nd : op.Nodup := inv.open_nodes.of_map
    have hinj : ∀ a ∈ op, ∀ b ∈ op, a.node = b.node → a = b := by
      intro a ha b hb hab
      exact List.inj_on_of_nodup_map inv.open_nodes ha hb hab
    have hqnotin_erase : q ∉ op.eraseIdx k := by
      have := nodup_get_not_mem_eraseIdx op hop_nd k hk
      rw [← hqdef] at this
      exact this
    have herase_notq : ∀ x ∈ op.eraseIdx k,
        x.node ∉ closed.map HierarchicalNode.node ++ [q.node] := by
      intro x hx hmem
      rcases List.mem_append.mp hmem with hm | hm
      · exact inv.open_closed x (herase_sub x hx) hm
      · have hxq : x = q := hinj x (herase_sub x hx) q hqmem (List.mem_singleton.mp hm)
        exact hqnotin_erase (hxq ▸ hx)
    have hadj : ∀ n ∈ get_successors q.node, Adjacent q.node n :=
      fun n hn => adjacent_of_mem_get_successors q.node n hn
    have hop1 : ∀ x ∈ op.eraseIdx k,
        GoodH s e (closed.map HierarchicalNode.node ++ [q.node]) x := by
      intro x hx
      exact GoodH.mono (fun y hy => List.mem_append.mpr (Or.inl hy))
        (inv.good x (List.mem_append.mpr (Or.inl (herase_sub x hx))))
    have hps := process_successors_sound fld s e none closed q hgoodq
      (get_successors q.node) (op.eraseIdx k) hadj hop1
    have hclosed'map : (closed ++ [q]).map HierarchicalNode.node =
        closed.map HierarchicalNode.node ++ [q.node] := by simp
    cases hproc : process_successors fld e none closed q (get_successors q.node)
        (op.eraseIdx k) with
    | inl pf =>
      have hshape := process_inl_shape fld e none closed q
        (get_successors q.node) (op.eraseIdx k) pf hproc
      have hvr : ValidRoute s e pf.route := hps.1 pf hproc
      have hlb := chain_dist_le pf.route s e hvr.2.2.1 hvr.1 hvr.2.1
      have hlenval : pf.route.length = q.g + 2 := by
        rw [hshape]
        simp only [List.length_append, List.length_singleton]
        omega
      have hqchain : q.node ∈ chainOf q := by simp [chainOf]
      have hqne : q.node ≠ e := fun hqe => hgoodq.no_end (hqe ▸ hqchain)
      have hdq : 1 ≤ distance q.node e :=
        Nat.pos_of_ne_zero (fun h0 => hqne (distance_eq_zero_iff.mp h0))
      have hub : q.g + 1 ≤ distance s e := by
        rcases hqf with hn | ⟨_, hg0, _⟩
        · omega
        · have hC1 : 1 ≤ distance s e :=
            Nat.pos_of_ne_zero (fun h0 => hse (distance_eq_zero_iff.mp h0))
          omega
      refine ⟨pf, ?_, by omega⟩
      show (if op.isEmpty then none
        else match find_min_index op with
          | none => none
          | some minIdx =>
            match op[minIdx]? with
            | none => none
            | some q' =>
              match process_successors fld e none closed q'
                  (get_successors q'.node) (op.eraseIdx minIdx) with
              | Sum.inl pp => some pp
              | Sum.inr op2' =>
                a_star_loop fld e none fuel op2' (closed ++ [q'])) = some pf
      rw [if_neg hcond, hfm]
      show (match op[k]? with
        | none => none
        | some q' =>
          match process_successors fld e none closed q'
              (get_successors q'.node) (op.eraseIdx k) with
          | Sum.inl pp => some pp
          | Sum.inr op2' =>
            a_star_loop fld e none fuel op2' (closed ++ [q'])) = some pf
      rw [hget]
      show (match process_successors fld e none closed q
          (get_successors q.node) (op.eraseIdx k) with
        | Sum.inl pp => some pp
        | Sum.inr op2' =>
          a_star_loop fld e none fuel op2' (closed ++ [q])) = some pf
      rw [hproc]
    | inr op2 =>
      have pinv := process_inv w h s e fld none closed q rfl rfl hqg
        (get_successors q.node) (op.eraseIdx k) op2 hadj herase_g herase_fok
        herase_field herase_nd herase_notq hproc
      have hpreserve : hw.node ≠ q.node →
          (∀ j', i < j' → j' < distance s e → walkNode s e j' ≠ q.node) →
          ∃ x ∈ op2, ∃ i' : Nat, i' < distance s e ∧ walkNode s e i' = x.node ∧
            x.g ≤ i' ∧ ∀ j' : Nat, i' < j' → j' < distance s e →
              walkNode s e j' ∉ (closed ++ [q]).map HierarchicalNode.node := by
        intro hwneq hnq
        have hhwerase : hw ∈ op.eraseIdx k :=
          mem_eraseIdx_of_ne op k hk hw hwmem
            (fun hcon => hwneq (congrArg HierarchicalNode.node hcon))
        obtain ⟨x, hxop2, hxnode, hxg⟩ := process_preserve_witness s e fld none
          closed q (get_successors q.node) (op.eraseIdx k) op2 hw.node i
          herase_fok herase_nd ⟨hw, hhwerase, rfl, hwg⟩ hproc
        refine ⟨x, hxop2, i, hiC, ?_, hxg, ?_⟩
        · rw [hxnode]
          exact hwalk
        · intro j' h1 h2
          rw [hclosed'map]
          intro hmem'
          rcases List.mem_append.mp hmem' with hm | hm
          · exact hbeyond j' h1 h2 hm
          · exact hnq j' h1 h2 (List.mem_singleton.mp hm)
      have hwitness : ∃ x ∈ op2, ∃ i' : Nat, i' < distance s e ∧
          walkNode s e i' = x.node ∧ x.g ≤ i' ∧
          ∀ j' : Nat, i' < j' → j' < distance s e →
            walkNode s e j' ∉ (closed ++ [q]).map HierarchicalNode.node := by
        by_cases hcase : ∃ j, j < distance s e ∧ walkNode s e j = q.node
        · obtain ⟨j, hjC, hjq⟩ := hcase
          have hdqj : distance q.node e = distance s e - j := by
            rw [← hjq]
            exact walk_dist s e j (le_of_lt hjC)
          have hqgj : q.g ≤ j := by
            rcases hqf with hn | ⟨_, hg0, _⟩
            · omega
            · omega
          have hj1 : j + 1 < distance s e := by
            rcases Nat.lt_or_ge (j + 1) (distance s e) with hlt | hge
            · exact hlt
            · exfalso
              have hjC1 : j + 1 = distance s e := by omega
              have hstep := walk_adjacent s e j hjC
              rw [hjq, hjC1, walk_end] at hstep
              obtain ⟨pp, hpp⟩ := process_inl_of_end fld e none closed q
                (get_successors q.node) (op.eraseIdx k)
                (adjacent_mem_get_successors hstep)
              rw [hpp] at hproc
              exact Sum.noConfusion hproc
          rcases Nat.lt_or_ge j i with hji | hij
          · refine hpreserve ?_ ?_
            · intro hcon
              have heq2 : walkNode s e i = walkNode s e j := by
                rw [hwalk, hjq]
                exact hcon
              have := walk_inj (le_of_lt hiC) (le_of_lt hjC) heq2
              omega
            · intro j' h1 h2 hcon
              have heq2 : walkNode s e j' = walkNode s e j := by
                rw [hcon]
                exact hjq.symm
              have := walk_inj (le_of_lt h2) (le_of_lt hjC) heq2
              omega
          · have hvadj : Adjacent q.node (walkNode s e (j + 1)) := by
              have := walk_adjacent s e j hjC
              rw [hjq] at this
              exact this
            have hvne : walkNode s e (j + 1) ≠ e := by
              intro hcon
              have heq2 : walkNode s e (j + 1) = walkNode s e (distance s e) := by
                rw [hcon, walk_end]
              have := walk_inj (le_of_lt hj1) (le_refl _) heq2
              omega
            have hvin : InField w h (walkNode s e (j + 1)) := walk_infield hs he (j + 1)
            obtain ⟨x, hxop2, hxnode, hxg⟩ := process_insert_witness s e fld closed q
              (get_successors q.node) (op.eraseIdx k) op2 (walkNode s e (j + 1))
              herase_fok herase_nd (adjacent_mem_get_successors hvadj) hvne
              (is_outside_field_eq_false.mpr hvin) (new_field_not_blocked hvin)
              (hbeyond (j + 1) (by omega) hj1) hproc
            refine ⟨x, hxop2, j + 1, hj1, hxnode.symm, by omega, ?_⟩
            intro j' h1 h2
            rw [hclosed'map]
            intro hmem'
            rcases List.mem_append.mp hmem' with hm | hm
            · exact hbeyond j' (by omega) h2 hm
            · have heq2 : walkNode s e j' = walkNode s e j := by
                rw [List.mem_singleton.mp hm]
                exact hjq.symm
              have := walk_inj (le_of_lt h2) (le_of_lt hjC) heq2
              omega
        · push_neg at hcase
          refine hpreserve ?_ ?_
          · intro hcon
            exact hcase i hiC (hwalk.trans hcon)
          · intro j' h1 h2
            exact hcase j' h2
      have inv2 : AStarInv w h s e op2 (closed ++ [q]) := by
        refine ⟨?_, ?_, ?_, ?_, ?_, ?_, ?_, hwitness⟩
        · intro x hx
          rcases List.mem_append.mp hx with hx1 | hx2
          · rw [hclosed'map]
            exact hps.2 op2 hproc x hx1
          · rcases List.mem_append.mp hx2 with hx3 | hx4
            · rw [hclosed'map]
              exact GoodH.mono (fun y hy => List.mem_append.mpr (Or.inl hy))
                (inv.good x (List.mem_append.mpr (Or.inr hx3)))
            · rw [hclosed'map, List.mem_singleton.mp hx4]
              exact GoodH.mono (fun y hy => List.mem_append.mpr (Or.inl hy)) hgoodq
        · intro x hx
          rcases List.mem_append.mp hx with hx1 | hx2
          · exact pinv.1 x hx1
          · rcases List.mem_append.mp hx2 with hx3 | hx4
            · exact inv.entry_g x (List.mem_append.mpr (Or.inr hx3))
            · rw [List.mem_singleton.mp hx4]
              exact hqg
        · exact pinv.2.1
        · intro x hx
          rcases List.mem_append.mp hx with hx1 | hx2
          · exact pinv.2.2.1 x hx1
          · rcases List.mem_append.mp hx2 with hx3 | hx4
            · exact inv.entry_field x (List.mem_append.mpr (Or.inr hx3))
            · rw [List.mem_singleton.mp hx4]
              exact inv.entry_field q hqmem2
        · exact pinv.2.2.2.1
        · intro x hx
          rw [hclosed'map]
          exact pinv.2.2.2.2 x hx
        · rw [hclosed'map, List.nodup_append]
          refine ⟨inv.closed_nodes, List.nodup_singleton _, ?_⟩
          intro a ha hb
          exact inv.open_closed q hqmem ((List.mem_singleton.mp hb) ▸ ha)
      obtain ⟨p, hloop, hlen⟩ := ih op2 (closed ++ [q]) inv2
        (by simp only [List.length_append, List.length_singleton]; omega)
      refine ⟨p, ?_, hlen⟩
      show (if op.isEmpty then none
        else match find_min_index op with
          | none => none
          | some minIdx =>
            match op[minIdx]? with
            | none => none
            | some q' =>
              match process_successors fld e none closed q'
                  (get_successors q'.node) (op.eraseIdx minIdx) with
              | Sum.inl pp => some pp
              | Sum.inr op2' =>
                a_star_loop fld e none fuel op2' (closed ++ [q'])) = some p
      rw [if_neg hcond, hfm]
      show (match op[k]? with
        | none => none
        | some q' =>
          match process_successors fld e none closed q'
              (get_successors q'.node) (op.eraseIdx k) with
          | Sum.inl pp => some pp
          | Sum.inr op2' =>
            a_star_loop fld e none fuel op2' (closed ++ [q'])) = some p
      rw [hget]
      show (match process_successors fld e none closed q
          (get_successors q.node) (op.eraseIdx k) with
        | Sum.inl pp => some pp
        | Sum.inr op2' =>
          a_star_loop fld e none fuel op2' (closed ++ [q])) = some p
      rw [hproc]
      exact hloop

/-- C2 counterexample: on the unblocked 2×1 field with start (0,0) and end
(1,0), `a_star` returns the two-node path [(0,0), (1,0)], whose size 2 is
not the Manhattan distance 1; the path's node count is the Manhattan
distance plus one (so the 16×16 scenario yields 28 nodes, not 27). -/
theorem c2_size_equals_manhattan_refuted :
    a_star tinyField (Node.new 0 0) (Node.new 1 0) 9 =
      some ⟨[Node.new 0 0, Node.new 1 0], 0⟩ ∧
    (Path.mk [Node.new 0 0, Node.new 1 0] 0).get_size ≠
      distance (Node.new 0 0) (Node.new 1 0) := by
  constructor
  · decide
  · decide

/-- C2 (corrected): on an unblocked `w × h` field, for every in-bounds
start and end with start ≠ end, `a_star` (given enough loop fuel) returns a
path whose size is the Manhattan distance plus one — one node per grid cell
visited, fence-posting the Manhattan number of steps.  In particular the
16×16 scenario with start (2,0) and end (14,15) yields 28 nodes, not 27. -/
theorem c2_unblocked_path_length (w h : Nat) (s e : Node)
    (hs : InField w h s) (he : InField w h e) (hse : s ≠ e)
    (hwh : w * h < 2 ^ 63) (fuel : Nat) (hfuel : w * h + 1 ≤ fuel) :
    ∃ p, a_star (TowerField.new w h s e) s e fuel = some p ∧
      p.get_size = distance s e + 1 := by
  have hC1 : 1 ≤ distance s e :=
    Nat.pos_of_ne_zero (fun h0 => hse (distance_eq_zero_iff.mp h0))
  have hinv : AStarInv w h s e [HierarchicalNode.from_node s] [] := by
    refine ⟨?_, ?_, ?_, ?_, ?_, ?_, ?_, ?_⟩
    · intro x hx
      have hx' : x = HierarchicalNode.from_node s := by simpa using hx
      rw [hx']
      exact goodH_from_node _ hse
    · intro x hx
      have hx' : x = HierarchicalNode.from_node s := by simpa using hx
      rw [hx']
      simp [HierarchicalNode.from_node]
    · intro x hx
      rw [List.mem_singleton.mp hx]
      exact Or.inr ⟨rfl, rfl, rfl⟩
    · intro x hx
      have hx' : x = HierarchicalNode.from_node s := by simpa using hx
      rw [hx']
      exact hs
    · simp
    · intro x _
      simp
    · simp
    · refine ⟨HierarchicalNode.from_node s, List.mem_singleton.mpr rfl, 0,
        hC1, rfl, le_refl _, ?_⟩
      intro j _ _
      simp
  obtain ⟨p, hloop, hlen⟩ := a_star_loop_complete hs he hse hwh fuel
    [HierarchicalNode.from_node s] [] hinv (by simpa using hfuel)
  refine ⟨p, ?_, hlen⟩
  show a_star_with_blocked_node (TowerField.new w h s e) s e none fuel = some p
  unfold a_star_with_blocked_node
  rw [if_neg (by simp)]
  rw [if_neg (by
    simp [(@is_outside_field_eq_false (TowerField.new w h s e) s).mpr hs] :
    ¬is_outside_field s (TowerField.new w h s e) = true)]
  rw [if_neg (by
    simp [(@is_outside_field_eq_false (TowerField.new w h s e) e).mpr he] :
    ¬is_outside_field e (TowerField.new w h s e) = true)]
  rw [if_neg (by simp [new_field_not_blocked hs] :
    ¬(TowerField.new w h s e).is_node_blocked s = true)]
  rw [if_neg (by simp [new_field_not_blocked he] :
    ¬(TowerField.new w h s e).is_node_blocked e = true)]
  rw [if_neg hse]
  exact hloop

/-- C2 witness: the 16×16 scenario.  All hypotheses hold concretely, so a
path of size `distance (2,0) (14,15) + 1 = 28` exists. -/
theorem c2_unblocked_path_length_witness :
    ∃ p, a_star (TowerField.new 16 16 (Node.new 2 0) (Node.new 14 15))
        (Node.new 2 0) (Node.new 14 15) 257 = some p ∧
      p.get_size = distance (Node.new 2 0) (Node.new 14 15) + 1 :=
  c2_unblocked_path_length 16 16 (Node.new 2 0) (Node.new 14 15)
    (by unfold InField; decide) (by unfold InField; decide) (by decide)
    (by decide) 257 (by decide)

end Gmtk
